import Mathlib

/-
  Verification development for the obsidian-scrippets plugin.

  Shallow embedding of:
  * the sandboxed loader (src/unnamed/part_001, the final revision at
    lines 108-157: loadScrippet, isScrippetModule),
  * the metadata extractor (src/unnamed/part_002: parseScrippetMetadata,
    buildHeaderSnippet, slugify, toIdentifier, updateScrippetId, ...),
  * the scan, pending-change, execution and debounce logic of
    src/src/scrippet-manager.ts.

  Strings are modelled as List Char; JS regular expressions are modelled by
  executable scanners whose semantics follow the backtracking behaviour of
  the concrete patterns in the source, as explained at each definition.
-/

namespace Scrippets

/-! ## JS value model for the sandboxed loader (src/unnamed/part_001, lines 108-157)

The loader builds a factory whose body declares
`let module = { exports: {} }; let exports = module.exports;
let Scrippet; let defaultExport; let invoke;`, splices the script source,
and returns
`(typeof module !== 'undefined' && module.exports) || (typeof exports !== 'undefined' && exports)
 || (typeof Scrippet !== 'undefined' && Scrippet) || (typeof defaultExport !== 'undefined' && defaultExport)
 || (typeof invoke === 'function' && { invoke }) || (typeof window.Scrippet === 'function' && window.Scrippet);`.

We abstract the JS values a script can leave in those bindings to exactly
what the loader inspects: truthiness, `typeof x === 'function'`,
the result of `new mod(plugin)`, and whether `.invoke` is callable.
`funcv b` is a function value; constructing it with `new` yields an object
whose `invoke` member is callable iff `b` (this also covers a factory
function that returns such an object, since `new f()` returns the object a
constructor returns).  `objv b` is a non-function object whose `invoke`
member is callable iff `b`.  `boolv`, `nullv`, `undef` abstract the
primitive values by their truthiness. -/

inductive JSVal where
  | undef : JSVal
  | nullv : JSVal
  | boolv : Bool → JSVal
  | objv : Bool → JSVal
  | funcv : Bool → JSVal
deriving DecidableEq, Repr

/-- JS truthiness of the modelled values: objects and functions are truthy,
`undefined`, `null` and a falsy primitive are not. -/
def truthy : JSVal → Bool
  | JSVal.undef => false
  | JSVal.nullv => false
  | JSVal.boolv b => b
  | JSVal.objv _ => true
  | JSVal.funcv _ => true

/-- Models `typeof v === 'function'`. -/
def isFunc : JSVal → Bool
  | JSVal.funcv _ => true
  | _ => false

/-- Models `typeof v !== 'undefined'`. -/
def isDefined : JSVal → Bool
  | JSVal.undef => false
  | _ => true

/-- Models `new mod(plugin)` for a function value (only ever applied when
`isFunc mod`; other cases are unreachable in `loadScrippet` and are mapped
to the value itself). -/
def jsNew : JSVal → JSVal
  | JSVal.funcv b => JSVal.objv b
  | v => v

/-- The state of the factory's bindings after the script source has run.
`moduleDefined` models `typeof module !== 'undefined'` and `moduleExports`
the value of `module.exports`; the loader initialises
`module = { exports: {} }` and `exports = module.exports`, i.e. both start
as a truthy empty object (`objv false`: no callable `invoke`). -/
structure SandboxState where
  moduleDefined : Bool
  moduleExports : JSVal
  exportsVal : JSVal
  scrippetVal : JSVal
  defaultExportVal : JSVal
  invokeVal : JSVal
  windowScrippet : JSVal
deriving DecidableEq, Repr

/-- The sandbox state before any script statement runs. -/
def initialSandbox : SandboxState :=
  { moduleDefined := true
    moduleExports := JSVal.objv false
    exportsVal := JSVal.objv false
    scrippetVal := JSVal.undef
    defaultExportVal := JSVal.undef
    invokeVal := JSVal.undef
    windowScrippet := JSVal.undef }

/-- JS `a && b` for a boolean guard `a`: the value of the conjunction is `b`
when the guard holds and the (falsy) boolean `false` otherwise. -/
def jsAnd (guard : Bool) (v : JSVal) : JSVal :=
  if guard then v else JSVal.boolv false

/-- JS `a || b`: the first operand if truthy, otherwise the second. -/
def jsOr (a b : JSVal) : JSVal :=
  if truthy a then a else b

/-- The return expression of the loader factory (src/unnamed/part_001,
lines 134-140), translated operator by operator. -/
def resolveModule (s : SandboxState) : JSVal :=
  jsOr (jsAnd s.moduleDefined s.moduleExports)
    (jsOr (jsAnd (isDefined s.exportsVal) s.exportsVal)
      (jsOr (jsAnd (isDefined s.scrippetVal) s.scrippetVal)
        (jsOr (jsAnd (isDefined s.defaultExportVal) s.defaultExportVal)
          (jsOr (jsAnd (isFunc s.invokeVal) (JSVal.objv (isFunc s.invokeVal)))
            (jsAnd (isFunc s.windowScrippet) s.windowScrippet)))))

/-- Models `isScrippetModule` (src/unnamed/part_001, lines 152-156):
the candidate must be a truthy value of typeof `object` whose `invoke`
member is a function.  `null` fails the truthiness test, functions fail the
typeof test. -/
def isScrippetModule : JSVal → Bool
  | JSVal.objv b => b
  | _ => false

/-- Models `loadScrippet` (src/unnamed/part_001, lines 113-150): resolve the
export shape, instantiate if the resolved value is a function, then validate
via `isScrippetModule`; a failed validation is the thrown load error. -/
def loadScrippet (s : SandboxState) : Except (List Char) JSVal :=
  let mod := resolveModule s
  let instance_ := if isFunc mod then jsNew mod else mod
  if isScrippetModule instance_ then Except.ok instance_
  else Except.error ("Scrippet must expose invoke(plugin)".data)

/-- The sandbox state left by a script consisting of a plain class with a
callable `invoke` (the README's `class Hello { invoke() { ... } }` example,
equivalently a script assigning such a class to the predeclared `Scrippet`
binding): only the class binding is set, `module.exports` and `exports`
keep their initial empty-object values. -/
def plainClassSandbox : SandboxState :=
  { initialSandbox with scrippetVal := JSVal.funcv true }

/-- Sandbox state of a script that defines both a named class binding and a
default-export class (both with callable `invoke`) and leaves the
module/export scaffolding untouched. -/
def twoShapeSandbox : SandboxState :=
  { initialSandbox with
      scrippetVal := JSVal.funcv true
      defaultExportVal := JSVal.funcv true }

/-! ### Spec-side cascade for the amended resolution-precedence claim -/

/-- Resolution precedence written as the spec's amended cascade: the
candidates are tried in the fixed order module/exports object, `exports`,
`Scrippet`, `defaultExport`, wrapped bare `invoke`, `window.Scrippet`, and
the first candidate whose value is defined and truthy wins; since
`module.exports` is initialised to a truthy empty object, the later shapes
are reachable only when a script overwrites `module`/`exports` with falsy
values. -/
def resolveSpec (s : SandboxState) : JSVal :=
  if s.moduleDefined && truthy s.moduleExports then s.moduleExports
  else if isDefined s.exportsVal && truthy s.exportsVal then s.exportsVal
  else if isDefined s.scrippetVal && truthy s.scrippetVal then s.scrippetVal
  else if isDefined s.defaultExportVal && truthy s.defaultExportVal then s.defaultExportVal
  else if isFunc s.invokeVal then JSVal.objv true
  else if isFunc s.windowScrippet then s.windowScrippet
  else JSVal.boolv false

/-- Spec-side loader: resolve by the cascade, instantiate a constructor with
the host handle, use any other value as-is, and gate on a callable
`invoke`. -/
def loadSpec (s : SandboxState) : Except (List Char) JSVal :=
  let mod := resolveSpec s
  let instance_ := if isFunc mod then jsNew mod else mod
  if isScrippetModule instance_ then Except.ok instance_
  else Except.error ("Scrippet must expose invoke(plugin)".data)

/-! ## String primitives

The metadata extractor works on raw source text.  We model JS strings as
`List Char` and translate each regular expression of the source into an
executable scanner with the same backtracking semantics. -/

/-- The character class `\s` of the source's patterns (ASCII part; the
scripts and headers this plugin processes are ASCII text). -/
def jsIsSpace (c : Char) : Bool :=
  c = ' ' || c = '\t' || c = '\n' || c = '\r' || c = '\x0b' || c = '\x0c'

/-- The character class `[\w-]` used by the `@key` patterns:
word characters (letters, digits, underscore) and the hyphen. -/
def isWordDashChar (c : Char) : Bool :=
  c.isAlphanum || c = '_' || c = '-'

/-- The character class `\w` (used by the display-name word-boundary
transform). -/
def isWordChar (c : Char) : Bool :=
  c.isAlphanum || c = '_'

/-- JS `String.prototype.trim`. -/
def trimJS (s : List Char) : List Char :=
  ((s.dropWhile jsIsSpace).reverse.dropWhile jsIsSpace).reverse

/-- JS `String.prototype.trimEnd`. -/
def trimEndJS (s : List Char) : List Char :=
  (s.reverse.dropWhile jsIsSpace).reverse

/-- JS `String.prototype.toLowerCase` (ASCII). -/
def toLowerL (s : List Char) : List Char :=
  s.map Char.toLower

/-- Split a whitespace run at its last newline: `u = q ++ '\n' :: r` with no
newline in `r`.  This is how the greedy `\s*` followed by `\n` distributes a
whitespace run in the front-matter pattern. -/
def splitAtLastNewline : List Char → Option (List Char × List Char)
  | [] => none
  | c :: t =>
    match splitAtLastNewline t with
    | some (a, b) => some (c :: a, b)
    | none => if c = '\n' then some ([], t) else none

/-- Split a line at its first colon (used by the modelled YAML parser). -/
def splitAtFirstColon : List Char → Option (List Char × List Char)
  | [] => none
  | c :: t =>
    if c = ':' then some ([], t)
    else (splitAtFirstColon t).map (fun p => (c :: p.1, p.2))

/-- Index of the first occurrence of the two-character pattern `[a, b]`. -/
def findSub2 (a b : Char) : List Char → Option Nat
  | [] => none
  | [_] => none
  | c :: d :: t =>
    if c = a && d = b then some 0
    else (findSub2 a b (d :: t)).map (· + 1)

/-- JS `source.split(/\r?\n/)`: separators are `"\r\n"` or `"\n"`; a lone
carriage return is not a separator.  Always returns at least one element. -/
def splitLinesJS : List Char → List (List Char)
  | [] => [[]]
  | '\r' :: '\n' :: rest => [] :: splitLinesJS rest
  | '\n' :: rest => [] :: splitLinesJS rest
  | c :: rest =>
    match splitLinesJS rest with
    | [] => [[c]]
    | l :: ls => (c :: l) :: ls

/-- Split on a single separator character (used for path segments). -/
def splitOnChar (sep : Char) : List Char → List (List Char)
  | [] => [[]]
  | c :: rest =>
    if c = sep then [] :: splitOnChar sep rest
    else
      match splitOnChar sep rest with
      | [] => [[c]]
      | l :: ls => (c :: l) :: ls

/-- JS `s.replace(/x/g, rep)` for a single-character pattern `x`: every
occurrence of the character is replaced by `rep`. -/
def replaceChar (pat : Char) (rep : List Char) : List Char → List Char
  | [] => []
  | c :: rest => (if c = pat then rep else [c]) ++ replaceChar pat rep rest

/-- Models `escapeHtml` (src/unnamed/part_002, lines 92-99): the five global
replaces applied in the source's order (`&` first, so later passes never
touch the ampersands introduced by the first). -/
def escapeHtml (s : List Char) : List Char :=
  replaceChar '\'' ("&#39;".data)
    (replaceChar '"' ("&quot;".data)
      (replaceChar '>' ("&gt;".data)
        (replaceChar '<' ("&lt;".data)
          (replaceChar '&' ("&amp;".data) s))))

/-! ## Records and metadata maps

JS objects built by the metadata extractor are modelled as association
lists with JS-object insertion semantics: assigning an existing key updates
the value in place (keeping first-insertion order, as `Object.entries`
reports it), assigning a fresh key appends. -/

/-- A primitive-or-not YAML value, enough to model `isMetadataPrimitive`:
strings, numbers and booleans are primitive, anything else is not. -/
inductive YVal where
  | str : List Char → YVal
  | num : Int → YVal
  | boolv : Bool → YVal
  | other : YVal
deriving DecidableEq, Repr

/-- Models `isMetadataPrimitive` (src/unnamed/part_002, lines 191-193). -/
def isMetadataPrimitive : YVal → Bool
  | YVal.str _ => true
  | YVal.num _ => true
  | YVal.boolv _ => true
  | YVal.other => false

/-- Models JS `String(rawValue)` on a primitive. -/
def yvalToChars : YVal → List Char
  | YVal.str s => s
  | YVal.num n => (toString n).data
  | YVal.boolv b => (toString b).data
  | YVal.other => []

/-- A parsed key/value record (JS object). -/
abbrev Record := List (List Char × YVal)

/-- The metadata map (JS object with string values). -/
abbrev Metadata := List (List Char × List Char)

/-- JS object property write: update in place when present, append when
fresh. -/
def setAssoc {α : Type} (m : List (List Char × α)) (k : List Char) (v : α) :
    List (List Char × α) :=
  match m with
  | [] => [(k, v)]
  | (k0, v0) :: rest =>
    if k0 = k then (k0, v) :: rest else (k0, v0) :: setAssoc rest k v

/-- JS object property read. -/
def getAssoc {α : Type} (m : List (List Char × α)) (k : List Char) : Option α :=
  match m with
  | [] => none
  | (k0, v0) :: rest => if k0 = k then some v0 else getAssoc rest k

/-- JS `delete obj[k]`. -/
def delAssoc {α : Type} (m : List (List Char × α)) (k : List Char) :
    List (List Char × α) :=
  m.filter (fun p => p.1 ≠ k)

/-- The loop body of `applyMetadataRecord` (src/unnamed/part_002,
lines 114-124) for one `Object.entries` pair. -/
def applyMetadataEntry (target : Metadata) (kv : List Char × YVal) : Metadata :=
  if isMetadataPrimitive kv.2 then
    let value := yvalToChars kv.2
    let normalized := toLowerL (trimJS kv.1)
    if normalized = [] then target
    else if normalized = ("description".data) then setAssoc target ("description".data) value
    else if normalized = ("desc".data) then setAssoc target ("desc".data) value
    else if normalized = ("name".data) then setAssoc target ("name".data) value
    else if normalized = ("id".data) then setAssoc target ("id".data) value
    else setAssoc target normalized value
  else target

/-- Models `applyMetadataRecord` (src/unnamed/part_002, lines 113-125):
every primitive entry is stringified and written under its trimmed,
lowercased key; the explicit `description`/`desc`/`name`/`id` branches of
the source all write under the already-normalized key, exactly like the
fall-through branch. -/
def applyMetadataRecord (target : Metadata) (record : Record) : Metadata :=
  record.foldl applyMetadataEntry target

/-! ## Modelled YAML (external obsidian `parseYaml` / `stringifyYaml`)

The plugin delegates front-matter parsing to obsidian's `parseYaml` and
re-serialisation to `stringifyYaml`.  These are external library functions,
modelled here for the flat `key: value` mappings that scrippet headers use:
each non-blank line must contain a colon; the key is the trimmed text
before the first colon and the value the trimmed text after it.  A
non-blank line without a colon is a parse error (`none`), matching the
`try/catch` in `safeParseYaml`. -/

def parseYamlLine (line : List Char) (acc : Record) : Option Record :=
  if trimJS line = [] then some acc
  else
    match splitAtFirstColon line with
    | none => none
    | some (k, v) =>
      let key := trimJS k
      if key = [] then none
      else some (setAssoc acc key (YVal.str (trimJS v)))

def parseYamlModel (body : List Char) : Option Record :=
  (splitLinesJS body).foldl
    (fun acc line => acc.bind (parseYamlLine line)) (some ([] : Record))

/-- Models `safeParseYaml` (src/unnamed/part_002, lines 101-111): a parse
error yields `none` (the catch branch returning `null`); a successful parse
of a flat mapping is a plain object, which passes the object/array check. -/
def safeParseYaml (raw : List Char) : Option Record :=
  parseYamlModel raw

/-- Modelled `stringifyYaml` for a flat string mapping: one `key: value`
line per entry, in insertion order, with a trailing newline. -/
def stringifyYamlModel (r : Record) : List Char :=
  (r.map (fun kv => kv.1 ++ (": ".data) ++ yvalToChars kv.2 ++ ['\n'])).flatten

/-! ## Directive scanning

The pattern `@([\w-]+)\s*:\s*` (shared prefix of the source's `DIRECTIVE`
regex and of `buildHeaderSnippet`'s highlight regex) is matched at a given
position by `tryDirectiveAt`.  Backtracking never helps this pattern: the
key class excludes whitespace and the colon, and whitespace runs contain no
colon, so the greedy `takeWhile` scans are exact. -/

structure DirHit where
  key : List Char
  ws1 : List Char
  ws2 : List Char
  rest : List Char
deriving DecidableEq, Repr

/-- Match `([\w-]+)\s*:\s*` against the text directly after an `@`.
`rest` is the remaining text after the second whitespace run. -/
def tryDirectiveAt (t : List Char) : Option DirHit :=
  let w := t.takeWhile isWordDashChar
  if w.isEmpty then none
  else
    let r1 := t.drop w.length
    let ws1 := r1.takeWhile jsIsSpace
    match r1.drop ws1.length with
    | ':' :: r3 =>
      let ws2 := r3.takeWhile jsIsSpace
      some { key := w, ws1 := ws1, ws2 := ws2, rest := r3.drop ws2.length }
    | _ => none

theorem tryDirectiveAt_rest_le (t : List Char) (hit : DirHit)
    (h : tryDirectiveAt t = some hit) : hit.rest.length ≤ t.length := by
  unfold tryDirectiveAt at h
  by_cases hw : (t.takeWhile isWordDashChar).isEmpty
  · simp [hw] at h
  · simp only [hw, if_false, Bool.false_eq_true] at h
    split at h
    · rename_i r3 heq
      have h3 : r3.length + 1 =
          ((t.drop (t.takeWhile isWordDashChar).length).drop
            (((t.drop (t.takeWhile isWordDashChar).length).takeWhile jsIsSpace).length)).length := by
        rw [heq]; simp
      cases h
      simp only [List.length_drop] at h3 ⊢
      omega
    · exact absurd h (by simp)

/-- The global scan of the source's `DIRECTIVE` regex
`/@([\w-]+)\s*:\s*([^@]*)/g` (src/unnamed/part_002, line 5): repeatedly
find the next `@` where the pattern matches, capture the key and the greedy
run of non-`@` characters as the raw value, and continue after the value.
The recursion is driven by a fuel counter so that the definition reduces in
the kernel; every step consumes at least one character
(`tryDirectiveAt_rest_le`), so fuel equal to the input length never runs
out. -/
def scanDirectivesAux : Nat → List Char → List (List Char × List Char)
  | 0, _ => []
  | _ + 1, [] => []
  | fuel + 1, c :: rest =>
    if c = '@' then
      match tryDirectiveAt rest with
      | some hit =>
        (hit.key, hit.rest.takeWhile (fun d => d ≠ '@')) ::
          scanDirectivesAux fuel
            (hit.rest.drop ((hit.rest.takeWhile (fun d => d ≠ '@')).length))
      | none => scanDirectivesAux fuel rest
    else scanDirectivesAux fuel rest

def scanDirectives (s : List Char) : List (List Char × List Char) :=
  scanDirectivesAux s.length s

/-- Models `parseComment` (src/unnamed/part_002, lines 127-138): fold the
directive matches into a record, skipping entries whose trimmed key or
value is empty; keys are trimmed and lowercased. -/
def parseComment (block : List Char) : Record :=
  (scanDirectives block).foldl
    (fun meta kv =>
      let key := toLowerL (trimJS kv.1)
      let value := trimJS kv.2
      if key = [] || value = [] then meta
      else setAssoc meta key (YVal.str value))
    []

/-! ## Front-matter matching

The anchored pattern `/^---\s*\n([\s\S]*?)\n---\s*(?:\n|$)/`
(src/unnamed/part_002, line 6).  Greedy `\s*` followed by `\n` consumes a
whitespace run up to and including its last newline; the lazy body stops at
the earliest `\n---` whose trailing `\s*(?:\n|$)` succeeds, i.e. whose
following whitespace run contains a newline or reaches the end of the
text. -/

/-- Match the closer `\n---\s*(?:\n|$)` at the head of the text; returns the
text after the match. -/
def tryFmCloseAt : List Char → Option (List Char)
  | '\n' :: t =>
    if t.take 3 = ("---".data) then
      let t3 := t.drop 3
      let u := t3.takeWhile jsIsSpace
      if (t3.drop u.length).isEmpty then some []
      else
        match splitAtLastNewline u with
        | some (_, r) => some (r ++ t3.drop u.length)
        | none => none
    else none
  | _ => none

/-- Find the earliest position where the closer matches; returns the lazy
body (the text before the closer) and the text after the whole match. -/
def findFmClose : List Char → Option (List Char × List Char)
  | [] => none
  | c :: t =>
    match tryFmCloseAt (c :: t) with
    | some rest => some ([], rest)
    | none =>
      match findFmClose t with
      | some (body, rest) => some (c :: body, rest)
      | none => none

/-- Match the opener `^---\s*\n`; returns the text after the opener. -/
def fmOpen (s : List Char) : Option (List Char) :=
  if s.take 3 = ("---".data) then
    let t := s.drop 3
    let w := t.takeWhile jsIsSpace
    match splitAtLastNewline w with
    | some (_, r) => some (r ++ t.drop w.length)
    | none => none
  else none

/-- The full front-matter match: `some (body, rest)` where `body` is the
captured group and `rest` the text after the whole match (so the raw match
is `s` with `rest` removed from the end). -/
def fmMatch (s : List Char) : Option (List Char × List Char) :=
  match fmOpen s with
  | none => none
  | some t1 => findFmClose t1

/-! ## Block descriptors and `parseScrippetMetadata` -/

/-- A front-matter block (`FrontmatterBlock` of the source); `stop` models
the source's `end` field. -/
structure FmBlock where
  start : Nat
  stop : Nat
  raw : List Char
  data : Record
deriving DecidableEq, Repr

/-- A metadata comment block (`MetadataBlock` of the source). -/
structure CmBlock where
  start : Nat
  stop : Nat
  raw : List Char
deriving DecidableEq, Repr

/-- Models `matchCommentBlock` (src/unnamed/part_002, lines 140-154): the
regex `/\/\*([\s\S]*?)\*\//` finds the first `/*` in the slice after
`offset` and the first `*/` at least two characters later; the source's
`slice.indexOf(match[0])` equals the match position because the matched
text itself starts with the first `/*` of the slice. -/
def matchCommentBlock (source : List Char) (offset : Nat) : Option CmBlock :=
  let slice := source.drop offset
  match findSub2 '/' '*' slice with
  | none => none
  | some i =>
    match findSub2 '*' '/' (slice.drop (i + 2)) with
    | none => none
    | some k =>
      let raw := (slice.drop i).take (k + 4)
      some { start := offset + i, stop := offset + i + raw.length, raw := raw }

/-- The result record of `parseScrippetMetadata`. -/
structure ParsedMetadata where
  metadata : Metadata
  source : List Char
  frontmatter : Option FmBlock
  comment : Option CmBlock
deriving DecidableEq, Repr

/-- Models `parseScrippetMetadata` (src/unnamed/part_002, lines 25-55):
match the anchored front-matter block first and apply its parsed record;
then match the first comment block starting at the front-matter's end
offset (or 0) and apply its directives on top of the front-matter keys. -/
def parseScrippetMetadata (source : List Char) : ParsedMetadata :=
  let fm : Option FmBlock :=
    match fmMatch source with
    | none => none
    | some br =>
      match safeParseYaml br.1 with
      | none => none
      | some data =>
        let rawLen := source.length - br.2.length
        some { start := 0, stop := rawLen, raw := source.take rawLen, data := data }
  let m1 : Metadata :=
    match fm with
    | some fb => applyMetadataRecord [] fb.data
    | none => []
  let commentOffset : Nat :=
    match fm with
    | some fb => fb.stop
    | none => 0
  let cm := matchCommentBlock source commentOffset
  let m2 : Metadata :=
    match cm with
    | some cb => applyMetadataRecord m1 (parseComment cb.raw)
    | none => m1
  { metadata := m2, source := source, frontmatter := fm, comment := cm }

/-! ## Identifiers and display names (src/unnamed/part_002, lines 66-90) -/

theorem dropWhile_len_le {α : Type} (p : α → Bool) (l : List α) :
    (l.dropWhile p).length ≤ l.length := by
  induction l with
  | nil => simp
  | cons c t ih =>
    by_cases h : p c <;> simp [List.dropWhile_cons, h] <;> omega

/-- Characters that survive slugification: `[a-z0-9]` (the input is already
lowercased when this is applied). -/
def isSlugChar (c : Char) : Bool :=
  ('a' ≤ c && c ≤ 'z') || ('0' ≤ c && c ≤ '9')

/-- The replace `/[^a-z0-9]+/g → "-"`: each maximal run of non-slug
characters collapses to one hyphen.  Fuel-driven for kernel reduction. -/
def collapseNonSlugAux : Nat → List Char → List Char
  | 0, s => s
  | _ + 1, [] => []
  | fuel + 1, c :: t =>
    if isSlugChar c then c :: collapseNonSlugAux fuel t
    else '-' :: collapseNonSlugAux fuel (t.dropWhile (fun d => !isSlugChar d))

def collapseNonSlug (s : List Char) : List Char :=
  collapseNonSlugAux s.length s

/-- The replace `/^-+|-+$/g → ""`: strip the leading and trailing hyphen
runs. -/
def stripHyphens (s : List Char) : List Char :=
  ((s.dropWhile (fun c => c = '-')).reverse.dropWhile (fun c => c = '-')).reverse

/-- Models `slugify` (src/unnamed/part_002, lines 84-90). -/
def slugify (value : List Char) : List Char :=
  stripHyphens (collapseNonSlug (trimJS (toLowerL value)))

/-- Modelled from the external obsidian `normalizePath` interface: convert
backslashes to forward slashes, drop empty segments, join with `/`. -/
def normalizePathModel (p : List Char) : List Char :=
  List.intercalate (['/'])
    ((splitOnChar '/' (replaceChar '\\' (['/']) p)).filter (fun s => !s.isEmpty))

/-- Models `getBasename` (src/unnamed/part_002, lines 78-82). -/
def getBasename (filePath : List Char) : List Char :=
  let normalized := normalizePathModel filePath
  (splitOnChar '/' normalized).getLastD normalized

/-- The replace `/\.(?:c|m)?js$/i → ""` in `toIdentifier`: remove a
trailing `.js`, `.cjs` or `.mjs` extension, case-insensitively. -/
def stripJsExt (s : List Char) : List Char :=
  let low := toLowerL s
  if (".cjs".data).isSuffixOf low || (".mjs".data).isSuffixOf low then
    s.take (s.length - 4)
  else if (".js".data).isSuffixOf low then s.take (s.length - 3)
  else s

/-- Models `toIdentifier` (src/unnamed/part_002, lines 72-76): a truthy
(non-empty) explicit `id` is slugified, otherwise the filename stem is. -/
def toIdentifier (filePath : List Char) (m : Metadata) : List Char :=
  match getAssoc m ("id".data) with
  | some v =>
    if v ≠ [] then slugify v else slugify (stripJsExt (getBasename filePath))
  | none => slugify (stripJsExt (getBasename filePath))

/-- The replace `/[-_]+/g → " "` of `toDisplayName`.  Fuel-driven for
kernel reduction. -/
def collapseSepsAux : Nat → List Char → List Char
  | 0, s => s
  | _ + 1, [] => []
  | fuel + 1, c :: t =>
    if c = '-' || c = '_' then
      ' ' :: collapseSepsAux fuel (t.dropWhile (fun d => d = '-' || d = '_'))
    else c :: collapseSepsAux fuel t

def collapseSeps (s : List Char) : List Char :=
  collapseSepsAux s.length s

/-- The replace `/\b\w/g` with upper-casing: capitalize each word character
that does not follow another word character.  The flag records whether the
previous character was a word character. -/
def capitalizeWordsAux : Bool → List Char → List Char
  | _, [] => []
  | prevWord, c :: t =>
    (if isWordChar c && !prevWord then c.toUpper else c) ::
      capitalizeWordsAux (isWordChar c) t

/-- Models `toDisplayName` (src/unnamed/part_002, lines 66-70). -/
def toDisplayName (filename : List Char) (m : Metadata) : List Char :=
  match getAssoc m ("name".data) with
  | some v =>
    if v ≠ [] then trimJS v
    else capitalizeWordsAux false (collapseSeps (getBasename filename))
  | none => capitalizeWordsAux false (collapseSeps (getBasename filename))

/-! ## Header snippet rendering (src/unnamed/part_002, lines 57-64) -/

/-- The global replace `/(@[\w-]+)(\s*:\s*)/g → '<mark>$1</mark>$2'` applied
per line by `buildHeaderSnippet`: wrap each matched `@key` in `<mark>` tags
and keep the whitespace/colon group.  Fuel-driven for kernel reduction;
fuel equal to the line length suffices since every step consumes at least
one character. -/
def markDirectivesAux : Nat → List Char → List Char
  | 0, s => s
  | _ + 1, [] => []
  | fuel + 1, c :: rest =>
    if c = '@' then
      match tryDirectiveAt rest with
      | some hit =>
        ("<mark>@".data) ++ hit.key ++ ("</mark>".data) ++ hit.ws1 ++ [':'] ++
          hit.ws2 ++ markDirectivesAux fuel hit.rest
      | none => c :: markDirectivesAux fuel rest
    else c :: markDirectivesAux fuel rest

def markDirectives (s : List Char) : List Char :=
  markDirectivesAux s.length s

/-- Models `buildHeaderSnippet` (src/unnamed/part_002, lines 57-64); the
source's default `maxLines` is 10.  Each of the first `maxLines` lines is
HTML-escaped, directive keys are then wrapped in `<mark>` tags, and the
lines are joined with `<br>`. -/
def buildHeaderSnippet (source : List Char) (maxLines : Nat) : List Char :=
  let lines := (splitLinesJS source).take maxLines
  if lines.isEmpty then []
  else List.intercalate ("<br>".data) (lines.map (fun l => markDirectives (escapeHtml l)))

/-! ## Rewriting the ID in place (src/unnamed/part_002, lines 156-189) -/

/-- Match `id\s*:\s*` (case-insensitive `id`) against the text directly
after an `@`, as in the source's `idPattern /(@id\s*:\s*)([^@\n]*)/i`.
Returns the matched group-1 text after the `@` and the text after the
greedy `[^@\n]*` value. -/
def tryIdAt (t : List Char) : Option (List Char × List Char) :=
  match t with
  | i :: d :: t2 =>
    if i.toLower = 'i' && d.toLower = 'd' then
      let ws1 := t2.takeWhile jsIsSpace
      match t2.drop ws1.length with
      | ':' :: r2 =>
        let ws2 := r2.takeWhile jsIsSpace
        let r3 := r2.drop ws2.length
        let v := r3.takeWhile (fun c => !(c = '@' || c = '\n'))
        some (i :: d :: (ws1 ++ ':' :: ws2), r3.drop v.length)
      | _ => none
    else none
  | _ => none

/-- First match of the source's `idPattern`: splits the block into the text
before the match, the group-1 prefix (`@id\s*:\s*`), and the text after the
matched value. -/
def findIdDirective : List Char → Option (List Char × List Char × List Char)
  | [] => none
  | c :: t =>
    match (if c = '@' then tryIdAt t else none) with
    | some pr => some ([], '@' :: pr.1, pr.2)
    | none =>
      (findIdDirective t).map (fun r => (c :: r.1, r.2.1, r.2.2))

/-- JS `block.lastIndexOf("*\/")` (index of the last comment closer). -/
def lastStarSlash (s : List Char) : Option Nat :=
  match findSub2 '/' '*' s.reverse with
  | none => none
  | some j => some (s.length - 2 - j)

/-- Models `updateCommentId` (src/unnamed/part_002, lines 178-189): if the
id pattern matches, the whole match (prefix and value) is replaced by the
prefix followed by the new id; otherwise an `@id:` directive is inserted
before the last `*\/` (or appended with a new closer when none exists). -/
def updateCommentId (block : List Char) (newId : List Char) : List Char :=
  match findIdDirective block with
  | some r => r.1 ++ r.2.1 ++ newId ++ r.2.2
  | none =>
    let insertion :=
      if block.contains '\n' then ("\n * @id: ".data) ++ newId
      else (" @id: ".data) ++ newId
    match lastStarSlash block with
    | none => block ++ insertion ++ ("\n*/".data)
    | some idx => block.take idx ++ insertion ++ ['\n'] ++ block.drop idx

/-- Models `updateScrippetId` (src/unnamed/part_002, lines 156-176): merge
the new id into an existing front-matter block and re-serialise it; else
rewrite the comment block's `@id` directive textually; else prepend a
minimal comment header. -/
def updateScrippetId (source : List Char) (newId : List Char) : List Char :=
  let parsed := parseScrippetMetadata source
  match parsed.frontmatter with
  | some fb =>
    let next := setAssoc fb.data ("id".data) (YVal.str newId)
    let yaml := trimEndJS (stringifyYamlModel next)
    let replacement := ("---\n".data) ++ yaml ++ ("\n---\n".data)
    source.take fb.start ++ replacement ++ source.drop fb.stop
  | none =>
    match parsed.comment with
    | some cb =>
      source.take cb.start ++ updateCommentId cb.raw newId ++ source.drop cb.stop
    | none => ("/* @id: ".data) ++ newId ++ (" */\n".data) ++ source

/-! ## Manager data model (src/src/scrippet-manager.ts and src/src/types.ts) -/

/-- A persisted per-ID preference record (`ScriptPreference`). -/
structure ScriptPreference where
  enabled : Bool
  hasRun : Bool
deriving DecidableEq, Repr

/-- The persisted `scriptStates` record, keyed by stable ID (legacy entries
are keyed by normalized path until migrated). -/
abbrev ScriptStates := List (List Char × ScriptPreference)

inductive ScrippetKind where
  | command : ScrippetKind
  | startup : ScrippetKind
deriving DecidableEq, Repr

/-- A script descriptor (`ScrippetDescriptor` of src/src/types.ts). -/
structure ScrippetDescriptor where
  id : List Char
  name : List Char
  description : Option (List Char)
  path : List Char
  kind : ScrippetKind
  metadata : Metadata
  enabled : Bool
  headerSnippet : List Char
  modified : Nat
deriving DecidableEq, Repr

/-- A duplicate-ID record (`ScrippetDuplicate`). -/
structure ScrippetDuplicate where
  path : List Char
  id : List Char
  suggestion : List Char
deriving DecidableEq, Repr

/-- Models `isWithin` (src/src/scrippet-manager.ts, lines 768-772). -/
def isWithin (path folder : List Char) : Bool :=
  let nf := normalizePathModel folder
  path = nf || (nf ++ ['/']).isPrefixOf path

/-- Models `ensurePreference` (lines 254-276): an existing ID-keyed record
is returned as-is; a legacy path-keyed record is migrated to the ID key;
otherwise a fresh enabled/not-yet-run record is created.  Returns the
record, the updated `scriptStates` and the updated `settingsDirty` flag. -/
def ensurePreference (states : ScriptStates) (dirty : Bool) (id path : List Char) :
    ScriptPreference × ScriptStates × Bool :=
  let pathKey := normalizePathModel path
  match getAssoc states id with
  | some existing => (existing, states, dirty)
  | none =>
    match getAssoc states pathKey with
    | some legacy => (legacy, setAssoc (delAssoc states pathKey) id legacy, true)
    | none =>
      let preference : ScriptPreference := { enabled := true, hasRun := false }
      (preference, setAssoc states id preference, true)

/-! ## Full scan (src/src/scrippet-manager.ts, lines 378-457) -/

/-- One iteration of the `while (taken.has(attempt))` loop of
`generateIdSuggestion`, with enough fuel for the distinct attempts to
exhaust the finite taken set. -/
def genSuggestionAux (baseId : List Char) (taken : List (List Char)) :
    Nat → Nat → List Char
  | 0, counter => baseId ++ '-' :: (Nat.toDigits 10 counter)
  | fuel + 1, counter =>
    let attempt := baseId ++ '-' :: (Nat.toDigits 10 counter)
    if attempt ∈ taken then genSuggestionAux baseId taken fuel (counter + 1)
    else attempt

/-- Models `generateIdSuggestion` (lines 726-738) as called during a full
scan, where `descriptorsById` has been cleared by `performFullReload`
before `scanScrippets` runs, so the taken set is exactly `processedIds`.
The loop tries `baseId`, `baseId-2`, `baseId-3`, ...; successive attempts
are distinct so at most `taken.length + 1` iterations occur. -/
def generateIdSuggestion (baseId : List Char) (taken : List (List Char)) : List Char :=
  if baseId ∈ taken then genSuggestionAux baseId taken (taken.length + 1) 2
  else baseId

/-- The storage layer and timestamps consumed by a scan: `fs` models
`adapter.read` (an exception carries the thrown message), `mtime` models
`getModifiedTime` (which never throws thanks to its internal fallbacks). -/
structure ScanEnv where
  fs : List Char → Except (List Char) (List Char)
  mtime : List Char → Nat

/-- The accumulator threaded through `tryBuildDescriptor` calls of one scan:
`processedIds`, the error list, the duplicate list, and the preference
store touched via `ensurePreference`. -/
structure ScanAcc where
  processed : List (List Char)
  errors : List (List Char × List Char)
  dups : List ScrippetDuplicate
  states : ScriptStates
  dirty : Bool
deriving Repr

/-- Models `tryBuildDescriptor` (lines 413-457): a read failure or an empty
derived id is recorded as an error; an already-claimed id is recorded as an
error and as a duplicate with a suggestion; otherwise the id is claimed and
a descriptor is produced. -/
def tryBuildDescriptor (env : ScanEnv) (path : List Char) (kind : ScrippetKind)
    (acc : ScanAcc) : ScanAcc × Option ScrippetDescriptor :=
  match env.fs path with
  | Except.error msg =>
    ({ acc with errors := acc.errors ++ [(path, msg)] }, none)
  | Except.ok src =>
    let metadata := (parseScrippetMetadata src).metadata
    let id := toIdentifier path metadata
    if id = [] then
      ({ acc with
          errors := acc.errors ++ [(path, ("Unable to derive scrippet id".data))] },
       none)
    else if id ∈ acc.processed then
      let suggestion := generateIdSuggestion id acc.processed
      ({ acc with
          errors := acc.errors ++
            [(path, ("Duplicate scrippet id \"".data) ++ id ++ ("\"".data))]
          dups := acc.dups ++ [{ path := path, id := id, suggestion := suggestion }] },
       none)
    else
      let pr := ensurePreference acc.states acc.dirty id path
      let descriptor : ScrippetDescriptor :=
        { id := id
          name := toDisplayName path metadata
          description :=
            (getAssoc metadata ("description".data)).orElse
              (fun _ => getAssoc metadata ("desc".data))
          path := path
          kind := kind
          metadata := metadata
          enabled := pr.1.enabled
          headerSnippet := buildHeaderSnippet src 10
          modified := env.mtime path }
      ({ acc with processed := acc.processed ++ [id], states := pr.2.1, dirty := pr.2.2 },
       some descriptor)

/-- One iteration of the per-file loop of `scanScrippets`: run
`tryBuildDescriptor` and append the produced descriptor, if any. -/
def scanStep (env : ScanEnv) (kind : ScrippetKind)
    (st : ScanAcc × List ScrippetDescriptor) (path : List Char) :
    ScanAcc × List ScrippetDescriptor :=
  let r := tryBuildDescriptor env path kind st.1
  match r.2 with
  | some d => (r.1, st.2 ++ [d])
  | none => (r.1, st.2)

/-- Fold `tryBuildDescriptor` over one file list, collecting the produced
descriptors.  The source issues the reads through `Promise.all`, but the
per-file bodies run interleaved on the single JS thread and claim ids in
completion order; the list order models that (intentionally weak, see spec
section 4.2) ordering. -/
def scanFold (env : ScanEnv) (kind : ScrippetKind) (files : List (List Char))
    (start : ScanAcc) : ScanAcc × List ScrippetDescriptor :=
  files.foldl (scanStep env kind) (start, [])

/-- The scan result (`ScrippetScanResult`). -/
structure ScrippetScanResult where
  commands : List ScrippetDescriptor
  startup : List ScrippetDescriptor
  errors : List (List Char × List Char)
  duplicates : List ScrippetDuplicate
deriving Repr

/-- Lexicographic comparison of char lists, the model of the
`localeCompare` ordering used by `sortByName`. -/
def charListLe : List Char → List Char → Bool
  | [], _ => true
  | _ :: _, [] => false
  | a :: as, b :: bs => if a = b then charListLe as bs else decide (a < b)

/-- Insert a descriptor after every already-placed descriptor whose name
compares less-or-equal, so that equal names keep their original relative
order. -/
def insertByName : List ScrippetDescriptor → ScrippetDescriptor → List ScrippetDescriptor
  | [], d => [d]
  | e :: rest, d =>
    if charListLe e.name d.name then e :: insertByName rest d else d :: e :: rest

/-- Models `sortByName` applied via `Array.prototype.sort` (a stable sort)
as a stable insertion sort by display name. -/
def sortByName (l : List ScrippetDescriptor) : List ScrippetDescriptor :=
  l.foldl insertByName []

/-- Models `scanScrippets` (lines 378-411): build descriptors for the
command files and then the startup files against one shared
`processedIds`/error/duplicate accumulator, then sort each group by display
name. -/
def scanScrippets (env : ScanEnv) (commandFiles startupFiles : List (List Char))
    (states : ScriptStates) (dirty : Bool) :
    ScrippetScanResult × ScriptStates × Bool :=
  let acc0 : ScanAcc :=
    { processed := [], errors := [], dups := [], states := states, dirty := dirty }
  let r1 := scanFold env ScrippetKind.command commandFiles acc0
  let r2 := scanFold env ScrippetKind.startup startupFiles r1.1
  ({ commands := sortByName r1.2
     startup := sortByName r2.2
     errors := r2.1.errors
     duplicates := r2.1.dups },
   r2.1.states, r2.1.dirty)

/-! ## Pending change set (src/src/scrippet-manager.ts, lines 34-47, 545-564) -/

inductive ChangeType where
  | changed : ChangeType
  | deleted : ChangeType
  | full : ChangeType
deriving DecidableEq, Repr

/-- A queued change (`QueuedChange`); `full` events carry no path. -/
structure QueuedChange where
  type : ChangeType
  path : Option (List Char)
deriving DecidableEq, Repr

/-- The pending change set (`PendingChanges`); the JS `Set`s are modelled as
duplicate-free lists. -/
structure PendingChanges where
  changed : List (List Char)
  deleted : List (List Char)
  full : Bool
deriving DecidableEq, Repr

/-- Models `createPendingChanges` (lines 40-42). -/
def createPendingChanges : PendingChanges :=
  { changed := [], deleted := [], full := false }

/-- JS `Set.prototype.add`. -/
def setAdd (s : List (List Char)) (x : List Char) : List (List Char) :=
  if x ∈ s then s else s ++ [x]

/-- JS `Set.prototype.delete`. -/
def setDel (s : List (List Char)) (x : List Char) : List (List Char) :=
  s.filter (fun y => y ≠ x)

/-- Models `registerChange` (lines 545-564): a full event clears both path
sets and latches the flag; while the flag is set per-path events are
dropped; a deletion evicts any pending changed entry for the same path; a
change is recorded only when the path has no pending deletion. -/
def registerChange (pc : PendingChanges) (change : QueuedChange) : PendingChanges :=
  if change.type = ChangeType.full then
    { full := true, changed := [], deleted := [] }
  else if pc.full then pc
  else
    match change.path with
    | none => pc
    | some p =>
      let normalized := normalizePathModel p
      if change.type = ChangeType.deleted then
        { pc with
            deleted := setAdd pc.deleted normalized
            changed := setDel pc.changed normalized }
      else if normalized ∈ pc.deleted then pc
      else { pc with changed := setAdd pc.changed normalized }

/-! ## Descriptor execution (src/src/scrippet-manager.ts, lines 217-354)

The externally observable actions of an execution are recorded as effects:
user notifications, the confirmation prompt, and the load/invoke steps of
the script itself.  The outcome of compiling a descriptor's source and of
its `invoke` call are oracles of the environment, keyed by descriptor
id. -/

inductive Effect where
  | notice : List Char → Effect
  | confirmPrompt : List Char → Effect
  | loadScript : List Char → Effect
  | invokeScript : List Char → Effect
deriving DecidableEq, Repr

structure ExecEnv where
  confirmBeforeFirstRun : Bool
  trustedFolders : List (List Char)
  confirmAnswer : List Char → Bool
  loadOutcome : List Char → Except (List Char) Unit
  invokeOutcome : List Char → Except (List Char) Unit

/-- The manager state touched by executions: the preference store with its
dirty flag, the per-path error map, and the per-id instance cache (tracked
as the set of cached ids). -/
structure MState where
  scriptStates : ScriptStates
  dirty : Bool
  errorMap : List (List Char × List Char)
  instanceCache : List (List Char)
deriving Repr

/-- Models `isTrusted` (lines 283-286). -/
def isTrusted (env : ExecEnv) (path : List Char) : Bool :=
  let normalized := normalizePathModel path
  env.trustedFolders.any (fun folder => isWithin normalized folder)

/-- Models `shouldConfirmFirstRun` (lines 278-281). -/
def shouldConfirmFirstRun (env : ExecEnv) (d : ScrippetDescriptor) : Bool :=
  env.confirmBeforeFirstRun && !(isTrusted env d.path)

/-- Models `loadDescriptorInstance` (lines 356-370): a cached instance is
returned without touching the loader; otherwise the source is read and
compiled (abstracted by the `loadOutcome` oracle); success caches the
instance and clears the path's error entry, failure propagates the thrown
message. -/
def loadDescriptorInstance (env : ExecEnv) (st : MState) (d : ScrippetDescriptor) :
    MState × Except (List Char) Unit × List Effect :=
  if d.id ∈ st.instanceCache then (st, Except.ok (), [])
  else
    match env.loadOutcome d.id with
    | Except.ok _ =>
      ({ st with
          instanceCache := setAdd st.instanceCache d.id
          errorMap := delAssoc st.errorMap d.path },
       Except.ok (), [Effect.loadScript d.id])
    | Except.error msg => (st, Except.error msg, [Effect.loadScript d.id])

def noticeDisabled (name : List Char) : List Char :=
  ("Scrippet \"".data) ++ name ++ ("\" is disabled.".data)

def noticeLoadFailed (name msg : List Char) : List Char :=
  ("Scrippet \"".data) ++ name ++ ("\" failed to load: ".data) ++ msg

def noticeInvokeFailed (name msg : List Char) : List Char :=
  ("Scrippet \"".data) ++ name ++ ("\" failed: ".data) ++ msg

def noticeStartupFailed (name msg : List Char) : List Char :=
  ("Startup scrippet \"".data) ++ name ++ ("\" failed: ".data) ++ msg

/-- Models `executeDescriptor` (lines 217-252): a disabled preference short
circuits with a status notice; an unconfirmed first run prompts and aborts
on decline; a load failure is recorded and reported; a successful invoke
marks `hasRun` once and flushes the settings; an invoke failure is only
reported. -/
def executeDescriptor (env : ExecEnv) (st : MState) (d : ScrippetDescriptor) :
    MState × List Effect :=
  let pr := ensurePreference st.scriptStates st.dirty d.id d.path
  let prefs := pr.1
  let st1 : MState := { st with scriptStates := pr.2.1, dirty := pr.2.2 }
  if !prefs.enabled then (st1, [Effect.notice (noticeDisabled d.name)])
  else
    let needsConfirm := shouldConfirmFirstRun env d && !prefs.hasRun
    let confirmEffs := if needsConfirm then [Effect.confirmPrompt d.id] else []
    if needsConfirm && !(env.confirmAnswer d.id) then (st1, confirmEffs)
    else
      let lr := loadDescriptorInstance env st1 d
      match lr.2.1 with
      | Except.error msg =>
        ({ lr.1 with errorMap := setAssoc lr.1.errorMap d.path msg },
         confirmEffs ++ lr.2.2 ++ [Effect.notice (noticeLoadFailed d.name msg)])
      | Except.ok _ =>
        match env.invokeOutcome d.id with
        | Except.ok _ =>
          if !prefs.hasRun then
            ({ lr.1 with
                scriptStates := setAssoc lr.1.scriptStates d.id { prefs with hasRun := true }
                dirty := false },
             confirmEffs ++ lr.2.2 ++ [Effect.invokeScript d.id])
          else (lr.1, confirmEffs ++ lr.2.2 ++ [Effect.invokeScript d.id])
        | Except.error msg =>
          (lr.1,
           confirmEffs ++ lr.2.2 ++
             [Effect.invokeScript d.id, Effect.notice (noticeInvokeFailed d.name msg)])

/-- The try block body of one `executeStartup` iteration (lines 328-349):
load, invoke, then create or update the preference record on success; any
failure is recorded against the path and reported for this script alone. -/
def startupRunOne (env : ExecEnv) (st : MState) (d : ScrippetDescriptor)
    (prefs : Option ScriptPreference) : MState × List Effect :=
  let lr := loadDescriptorInstance env st d
  match lr.2.1 with
  | Except.error msg =>
    ({ lr.1 with errorMap := setAssoc lr.1.errorMap d.path msg },
     lr.2.2 ++ [Effect.notice (noticeStartupFailed d.name msg)])
  | Except.ok _ =>
    match env.invokeOutcome d.id with
    | Except.ok _ =>
      match prefs with
      | none =>
        ({ lr.1 with
            scriptStates :=
              setAssoc lr.1.scriptStates d.id { enabled := true, hasRun := true }
            dirty := true },
         lr.2.2 ++ [Effect.invokeScript d.id])
      | some p =>
        if !p.hasRun then
          ({ lr.1 with
              scriptStates := setAssoc lr.1.scriptStates d.id { p with hasRun := true }
              dirty := true },
           lr.2.2 ++ [Effect.invokeScript d.id])
        else (lr.1, lr.2.2 ++ [Effect.invokeScript d.id])
    | Except.error msg =>
      ({ lr.1 with errorMap := setAssoc lr.1.errorMap d.path msg },
       lr.2.2 ++ [Effect.invokeScript d.id, Effect.notice (noticeStartupFailed d.name msg)])

/-- One iteration of the `executeStartup` loop (lines 325-342): look up
the preference by id, skip a disabled script, otherwise run it and append
its effects. -/
def startupStep (env : ExecEnv) (acc : MState × List Effect)
    (d : ScrippetDescriptor) : MState × List Effect :=
  match getAssoc acc.1.scriptStates d.id with
  | some p =>
    if !p.enabled then acc
    else
      let one := startupRunOne env acc.1 d (some p)
      (one.1, acc.2 ++ one.2)
  | none =>
    let one := startupRunOne env acc.1 d none
    (one.1, acc.2 ++ one.2)

/-- Models `executeStartup` (lines 323-354): iterate over the startup
descriptors, skipping those whose existing preference is disabled; each
script's failures are caught inside its own iteration; the settings are
flushed at the end when any preference changed. -/
def executeStartup (env : ExecEnv) (st : MState) (ds : List ScrippetDescriptor) :
    MState × List Effect :=
  let r := ds.foldl (startupStep env) (st, ([] : List Effect))
  (if r.1.dirty then { r.1 with dirty := false } else r.1, r.2)

/-! ## Debounce timing (src/src/scrippet-manager.ts, lines 62-67, 519-543)

The `queueChange` timing logic as a discrete-event model over millisecond
timestamps.  A pending reload timer is a scheduled fire time; an event
arriving after the fire time first lets the timer callback run (which
flushes and resets the burst counter and delay), then runs `queueChange`:
grow the delay inside the 500 ms window, reset it outside, and re-arm the
single timer.  A same-millisecond race between the timer and the event is
resolved in favour of the event (the theorems below avoid that boundary
anyway). -/

structure DebounceState where
  changeBurst : Nat
  reloadDelay : Nat
  lastChangeAt : Nat
  timer : Option Nat
deriving DecidableEq, Repr

def baseReloadDelay : Nat := 200

def maxReloadDelay : Nat := 1000

/-- The fields as initialised by the manager before any event. -/
def initDebounce : DebounceState :=
  { changeBurst := 0, reloadDelay := baseReloadDelay, lastChangeAt := 0, timer := none }

/-- Fire a due timer (the `setTimeout` callback of lines 537-542) before an
event at time `t` is processed; returns the flush times emitted. -/
def fireIfDue (s : DebounceState) (t : Nat) : DebounceState × List Nat :=
  match s.timer with
  | some f =>
    if f < t then
      ({ s with timer := none, changeBurst := 0, reloadDelay := baseReloadDelay }, [f])
    else (s, [])
  | none => (s, [])

/-- Models one `queueChange` call at time `t` (lines 519-543): adapt the
delay to the burst, cancel any pending timer and re-arm it `reloadDelay`
milliseconds out. -/
def queueStep (s : DebounceState) (t : Nat) : DebounceState × List Nat :=
  let fr := fireIfDue s t
  let s1 := fr.1
  let s2 :=
    if t - s1.lastChangeAt < 500 then
      { s1 with
          changeBurst := s1.changeBurst + 1
          reloadDelay := min maxReloadDelay (baseReloadDelay + (s1.changeBurst + 1) * 100) }
    else { s1 with changeBurst := 1, reloadDelay := baseReloadDelay }
  ({ s2 with lastChangeAt := t, timer := some (t + s2.reloadDelay) }, fr.2)

/-- Process a nondecreasing list of event times. -/
def runQueue (s : DebounceState) : List Nat → DebounceState × List Nat
  | [] => (s, [])
  | t :: ts =>
    let r := queueStep s t
    let rest := runQueue r.1 ts
    (rest.1, r.2 ++ rest.2)

/-- All flush times produced by a finite event sequence: the flushes fired
between events plus the final pending timer (which fires once events
stop). -/
def flushTimes (events : List Nat) : List Nat :=
  let r := runQueue initDebounce events
  r.2 ++ (match r.1.timer with | some f => [f] | none => [])

/-! ## Character and trimming lemmas -/

theorem toNat_ofNat_small {n : Nat} (h : n < 55296) : (Char.ofNat n).toNat = n := by
  unfold Char.ofNat
  rw [dif_pos (Or.inl h)]
  simp [Char.toNat, Char.ofNatAux, UInt32.toNat, BitVec.toNat_ofNatLt]

theorem char_toNat_inj {a b : Char} (h : a.toNat = b.toNat) : a = b := by
  have ha := Char.ofNat_toNat a
  have hb := Char.ofNat_toNat b
  rw [← ha, ← hb, h]

theorem toNat_space : (' ').toNat = 32 := rfl

theorem toNat_tab : ('\t').toNat = 9 := rfl

theorem toNat_lf : ('\n').toNat = 10 := rfl

theorem toNat_cr : ('\r').toNat = 13 := rfl

theorem toNat_vt : ('\x0b').toNat = 11 := rfl

theorem toNat_ff : ('\x0c').toNat = 12 := rfl

theorem toLower_eq_pos {c : Char} (h : 65 ≤ c.toNat ∧ c.toNat ≤ 90) :
    Char.toLower c = Char.ofNat (c.toNat + 32) := by
  show (if c.toNat ≥ 65 ∧ c.toNat ≤ 90 then Char.ofNat (c.toNat + 32) else c) =
    Char.ofNat (c.toNat + 32)
  rw [if_pos h]

theorem toLower_eq_neg {c : Char} (h : ¬(65 ≤ c.toNat ∧ c.toNat ≤ 90)) :
    Char.toLower c = c := by
  show (if c.toNat ≥ 65 ∧ c.toNat ≤ 90 then Char.ofNat (c.toNat + 32) else c) = c
  rw [if_neg h]

/-- Lowercasing does not change whether a character is whitespace: the
letters moved by `toLower` and their images are not in the `\s` set. -/
theorem jsIsSpace_toLower (c : Char) : jsIsSpace (Char.toLower c) = jsIsSpace c := by
  by_cases h : 65 ≤ c.toNat ∧ c.toNat ≤ 90
  · have ht : (Char.ofNat (c.toNat + 32)).toNat = c.toNat + 32 :=
      toNat_ofNat_small (by omega)
    have h1 : jsIsSpace c = false := by
      by_contra hcon
      rw [Bool.not_eq_false] at hcon
      unfold jsIsSpace at hcon
      simp only [Bool.or_eq_true, decide_eq_true_eq] at hcon
      rcases hcon with ((((rfl | rfl) | rfl) | rfl) | rfl) | rfl <;> exact absurd h (by decide)
    have h2 : jsIsSpace (Char.ofNat (c.toNat + 32)) = false := by
      by_contra hcon
      rw [Bool.not_eq_false] at hcon
      unfold jsIsSpace at hcon
      simp only [Bool.or_eq_true, decide_eq_true_eq] at hcon
      rcases hcon with ((((he | he) | he) | he) | he) | he <;>
        (have h3 := congrArg Char.toNat he
         rw [ht] at h3
         simp only [toNat_space, toNat_tab, toNat_lf, toNat_cr, toNat_vt, toNat_ff] at h3
         omega)
    rw [toLower_eq_pos h, h1, h2]
  · rw [toLower_eq_neg h]

theorem toLower_toLower (c : Char) :
    Char.toLower (Char.toLower c) = Char.toLower c := by
  by_cases h : 65 ≤ c.toNat ∧ c.toNat ≤ 90
  · have ht : (Char.ofNat (c.toNat + 32)).toNat = c.toNat + 32 :=
      toNat_ofNat_small (by omega)
    rw [toLower_eq_pos h, toLower_eq_neg (by rw [ht]; omega)]
  · rw [toLower_eq_neg h, toLower_eq_neg h]

theorem toLowerL_toLowerL (s : List Char) : toLowerL (toLowerL s) = toLowerL s := by
  unfold toLowerL
  rw [List.map_map]
  exact List.map_congr_left (fun c _ => toLower_toLower c)

/-- A prefix of a list that `dropWhile` leaves unchanged is itself left
unchanged. -/
theorem dropWhile_eq_self_of_prefix {α : Type} (p : α → Bool) {t l : List α}
    (hpre : t <+: l) (hl : l.dropWhile p = l) : t.dropWhile p = t := by
  cases t with
  | nil => rfl
  | cons c ts =>
    obtain ⟨r, rfl⟩ := hpre
    rw [List.cons_append, List.dropWhile_cons] at hl
    by_cases h : p c
    · rw [if_pos h] at hl
      have hle := dropWhile_len_le p (ts ++ r)
      have := congrArg List.length hl
      simp only [List.length_cons] at this
      omega
    · rw [List.dropWhile_cons, if_neg h]

theorem trimJS_trimJS (s : List Char) : trimJS (trimJS s) = trimJS s := by
  unfold trimJS
  set a := s.dropWhile jsIsSpace with ha
  set t := ((a.reverse.dropWhile jsIsSpace).reverse : List Char) with htdef
  have hta : t <+: a := by
    rw [htdef]
    have hsuf : a.reverse.dropWhile jsIsSpace <:+ a.reverse := List.dropWhile_suffix _
    have h2 := List.reverse_prefix.2 hsuf
    rw [List.reverse_reverse] at h2
    exact h2
  have hdropa : a.dropWhile jsIsSpace = a := by
    rw [ha]
    exact List.dropWhile_idempotent _ _
  have h1 : t.dropWhile jsIsSpace = t := dropWhile_eq_self_of_prefix _ hta hdropa
  rw [h1]
  have h2 : t.reverse.dropWhile jsIsSpace = t.reverse := by
    rw [htdef, List.reverse_reverse]
    exact List.dropWhile_idempotent _ _
  rw [h2, List.reverse_reverse]

theorem trimJS_toLowerL (s : List Char) :
    trimJS (toLowerL s) = toLowerL (trimJS s) := by
  unfold trimJS toLowerL
  have hps : (jsIsSpace ∘ Char.toLower) = jsIsSpace := funext jsIsSpace_toLower
  rw [List.dropWhile_map, hps, ← List.map_reverse, List.dropWhile_map, hps,
    ← List.map_reverse]

theorem normKey_idem (s : List Char) :
    toLowerL (trimJS (toLowerL (trimJS s))) = toLowerL (trimJS s) := by
  rw [trimJS_toLowerL, toLowerL_toLowerL, trimJS_trimJS]

/-! ## Association-map lemmas -/

theorem getAssoc_setAssoc_self {α : Type} (m : List (List Char × α)) (k : List Char)
    (v : α) : getAssoc (setAssoc m k v) k = some v := by
  induction m with
  | nil => simp [setAssoc, getAssoc]
  | cons kv rest ih =>
    by_cases h : kv.1 = k
    · simp [setAssoc, getAssoc, h]
    · simp [setAssoc, getAssoc, h, ih]

theorem getAssoc_setAssoc_ne {α : Type} (m : List (List Char × α)) (k k0 : List Char)
    (v : α) (h : k0 ≠ k) : getAssoc (setAssoc m k0 v) k = getAssoc m k := by
  induction m with
  | nil => simp [setAssoc, getAssoc, h]
  | cons kv rest ih =>
    rcases kv with ⟨k1, v1⟩
    by_cases h1 : k1 = k0
    · subst h1
      simp only [setAssoc, if_pos rfl, getAssoc]
      rw [if_neg h, if_neg h]
    · simp only [setAssoc, if_neg h1, getAssoc]
      by_cases h2 : k1 = k
      · rw [if_pos h2, if_pos h2]
      · rw [if_neg h2, if_neg h2]
        exact ih

theorem setAssoc_keys_of_mem {α : Type} (m : List (List Char × α)) (k : List Char)
    (v : α) (h : k ∈ m.map Prod.fst) :
    (setAssoc m k v).map Prod.fst = m.map Prod.fst := by
  induction m with
  | nil => simp at h
  | cons kv rest ih =>
    rcases kv with ⟨k1, v1⟩
    by_cases h1 : k1 = k
    · simp [setAssoc, h1]
    · simp only [List.map_cons, List.mem_cons] at h
      rcases h with h | h

      · exact absurd h.symm h1
      · simp [setAssoc, h1, ih h]

theorem setAssoc_keys_of_notmem {α : Type} (m : List (List Char × α)) (k : List Char)
    (v : α) (h : k ∉ m.map Prod.fst) :
    (setAssoc m k v).map Prod.fst = m.map Prod.fst ++ [k] := by
  induction m with
  | nil => simp [setAssoc]
  | cons kv rest ih =>
    rcases kv with ⟨k1, v1⟩
    simp only [List.map_cons, List.mem_cons, not_or] at h
    have h1 : k1 ≠ k := fun he => h.1 he.symm
    simp [setAssoc, h1, ih h.2]

theorem setAssoc_keys_nodup {α : Type} (m : List (List Char × α)) (k : List Char)
    (v : α) (h : (m.map Prod.fst).Nodup) : ((setAssoc m k v).map Prod.fst).Nodup := by
  by_cases hm : k ∈ m.map Prod.fst
  · rw [setAssoc_keys_of_mem m k v hm]
    exact h
  · rw [setAssoc_keys_of_notmem m k v hm]
    simp [List.nodup_append, h, hm]

theorem mem_setAssoc {α : Type} (m : List (List Char × α)) (k : List Char) (v : α)
    (kv : List Char × α) (h : kv ∈ setAssoc m k v) : kv ∈ m ∨ kv = (k, v) := by
  induction m with
  | nil => simpa [setAssoc] using h
  | cons e rest ih =>
    by_cases h1 : e.1 = k
    · simp only [setAssoc, if_pos h1, List.mem_cons] at h
      rcases h with rfl | h
      · right; rw [← h1]
      · exact Or.inl (List.mem_cons_of_mem _ h)
    · simp only [setAssoc, if_neg h1, List.mem_cons] at h
      rcases h with rfl | h
      · exact Or.inl (List.mem_cons_self _ _)
      · rcases ih h with h2 | h2
        · exact Or.inl (List.mem_cons_of_mem _ h2)
        · exact Or.inr h2

/-- Fold-invariant preservation. -/
theorem foldl_preserve {α β : Type} (P : β → Prop) (f : β → α → β)
    (h : ∀ b a, P b → P (f b a)) : ∀ (l : List α) (b : β), P b → P (l.foldl f b) := by
  intro l
  induction l with
  | nil => intro b hb; exact hb
  | cons a rest ih => intro b hb; exact ih (f b a) (h b a hb)

/-- The well-formedness of a record built by `parseComment`: every stored
key is a fixpoint of trim-and-lowercase normalization and non-empty, every
value is a primitive, and keys are duplicate-free. -/
def RecordWF (r : Record) : Prop :=
  (∀ kv ∈ r,
    toLowerL (trimJS kv.1) = kv.1 ∧ kv.1 ≠ [] ∧ isMetadataPrimitive kv.2 = true) ∧
  (r.map Prod.fst).Nodup

theorem parseComment_wf (block : List Char) : RecordWF (parseComment block) := by
  unfold parseComment
  apply foldl_preserve RecordWF
  · intro meta kv hwf
    by_cases hskip : (toLowerL (trimJS kv.1) = [] || decide (trimJS kv.2 = [])) = true
    · simpa [hskip] using hwf
    · rw [if_neg (by simpa using hskip)]
      simp only [Bool.or_eq_true, decide_eq_true_eq, not_or] at hskip
      constructor
      · intro e he
        rcases mem_setAssoc _ _ _ _ he with hmem | rfl
        · exact hwf.1 e hmem
        · exact ⟨normKey_idem kv.1, hskip.1, rfl⟩
      · exact setAssoc_keys_nodup _ _ _ hwf.2
  · exact ⟨by simp, by simp⟩

/-! ## Lookup behaviour of `applyMetadataRecord` -/

theorem applyMetadataEntry_eq_setAssoc (m : Metadata) (kv : List Char × YVal)
    (hn : toLowerL (trimJS kv.1) = kv.1) (hne : kv.1 ≠ [])
    (hp : isMetadataPrimitive kv.2 = true) :
    applyMetadataEntry m kv = setAssoc m kv.1 (yvalToChars kv.2) := by
  unfold applyMetadataEntry
  rw [if_pos hp]
  simp only [hn]
  rw [if_neg hne]
  by_cases h1 : kv.1 = ("description".data)
  · rw [if_pos h1, h1]
  · rw [if_neg h1]
    by_cases h2 : kv.1 = ("desc".data)
    · rw [if_pos h2, h2]
    · rw [if_neg h2]
      by_cases h3 : kv.1 = ("name".data)
      · rw [if_pos h3, h3]
      · rw [if_neg h3]
        by_cases h4 : kv.1 = ("id".data)
        · rw [if_pos h4, h4]
        · rw [if_neg h4]

theorem applyRecord_getAssoc_notmem (r : Record) : ∀ (m : Metadata) (k : List Char),
    (∀ kv ∈ r, toLowerL (trimJS kv.1) = kv.1) → k ∉ r.map Prod.fst →
    getAssoc (applyMetadataRecord m r) k = getAssoc m k := by
  induction r with
  | nil => intro m k _ _; rfl
  | cons kv rest ih =>
    intro m k hwf hk
    simp only [List.map_cons, List.mem_cons, not_or] at hk
    have hstep : applyMetadataRecord m (kv :: rest) =
        applyMetadataRecord (applyMetadataEntry m kv) rest := rfl
    rw [hstep, ih _ k (fun e he => hwf e (List.mem_cons_of_mem _ he)) hk.2]
    by_cases hp : isMetadataPrimitive kv.2 = true
    · by_cases hne : kv.1 = []
      · unfold applyMetadataEntry
        rw [if_pos hp]
        simp only [hwf kv (List.mem_cons_self _ _)]
        rw [if_pos hne]
      · rw [applyMetadataEntry_eq_setAssoc m kv (hwf kv (List.mem_cons_self _ _)) hne hp]
        exact getAssoc_setAssoc_ne m k kv.1 _ (fun he => hk.1 he.symm)
    · unfold applyMetadataEntry
      rw [if_neg hp]

/-- Looking up a key of a well-formed record after applying it on top of any
base metadata yields the record's (stringified) value: in particular every
key of the comment record wins over whatever the front-matter put there. -/
theorem applyRecord_getAssoc_eq (r : Record) : ∀ (m : Metadata) (k : List Char) (v : YVal),
    RecordWF r → getAssoc r k = some v →
    getAssoc (applyMetadataRecord m r) k = some (yvalToChars v) := by
  induction r with
  | nil => intro m k v _ hg; simp [getAssoc] at hg
  | cons kv rest ih =>
    intro m k v hwf hg
    rcases hwf with ⟨hall, hnd⟩
    rcases kv with ⟨k0, v0⟩
    have hkv := hall (k0, v0) (List.mem_cons_self _ _)
    have hstep : applyMetadataRecord m ((k0, v0) :: rest) =
        applyMetadataRecord (applyMetadataEntry m (k0, v0)) rest := rfl
    simp only [getAssoc] at hg
    simp only [List.map_cons, List.nodup_cons] at hnd
    by_cases hk : k0 = k
    · rw [if_pos hk] at hg
      injection hg with hv
      subst hv
      subst hk
      rw [hstep,
        applyRecord_getAssoc_notmem rest _ k0
          (fun e he => (hall e (List.mem_cons_of_mem _ he)).1) hnd.1,
        applyMetadataEntry_eq_setAssoc m (k0, v0) hkv.1 hkv.2.1 hkv.2.2]
      exact getAssoc_setAssoc_self m k0 _
    · rw [if_neg hk] at hg
      rw [hstep]
      exact ih _ k v ⟨fun e he => hall e (List.mem_cons_of_mem _ he), hnd.2⟩ hg

/-- The comment block reported by `matchCommentBlock` never starts before
the offset it was asked to scan from. -/
theorem matchCommentBlock_start_ge (source : List Char) (offset : Nat) (cb : CmBlock)
    (h : matchCommentBlock source offset = some cb) : offset ≤ cb.start := by
  unfold matchCommentBlock at h
  simp only [] at h
  rcases h1 : findSub2 '/' '*' (source.drop offset) with _ | i
  · rw [h1] at h; exact absurd h (by simp)
  · rw [h1] at h
    simp only [] at h
    rcases h2 : findSub2 '*' '/' ((source.drop offset).drop (i + 2)) with _ | k
    · rw [h2] at h; exact absurd h (by simp)
    · rw [h2] at h
      simp only [Option.some_inj] at h
      subst h
      simp only []
      omega

/-! ## Concrete counterexample inputs -/

/-- A source with both a front-matter header (`id: alpha`) and a comment
header (`@id: beta`) after it. -/
def c3Source : List Char := ("---\nid: alpha\n---\n/* @id: beta @z: q */\n").data

/-- A source whose only metadata header is the canonical single-line
comment form used by the repository README and examples. -/
def c5Source : List Char := ("/* @id: old */\nconst value = 1;").data

/-! ## Loader chain lemmas -/

theorem jsOr_jsAnd (g : Bool) (v rest : JSVal) :
    jsOr (jsAnd g v) rest = if g && truthy v then v else rest := by
  unfold jsOr jsAnd
  by_cases hg : g
  · by_cases hv : truthy v <;> simp [hg, hv]
  · simp [hg, truthy]

theorem resolveModule_eq_spec (s : SandboxState) :
    resolveModule s = resolveSpec s := by
  unfold resolveModule resolveSpec
  rw [jsOr_jsAnd, jsOr_jsAnd, jsOr_jsAnd, jsOr_jsAnd, jsOr_jsAnd]
  by_cases hiv : isFunc s.invokeVal <;>
    by_cases hws : isFunc s.windowScrippet <;>
      simp [hiv, hws, jsAnd, truthy]

/-! # Claim theorems and witnesses -/

/-- C1 (code bug): a script source consisting of just a plain class with a
callable `invoke` (the shape documented by the repository README and
AGENTS notes) leaves the sandbox in `plainClassSandbox`; the loader then
resolves the predeclared truthy empty `module.exports` object instead of
the class, fails the `invoke` validation gate and throws, contradicting the
claim that every source resolving to one of the five supported shapes
yields an object with a callable `invoke`. -/
theorem c1_plain_class_shape_fails_to_load :
    plainClassSandbox.scrippetVal = JSVal.funcv true ∧
    resolveModule plainClassSandbox = JSVal.objv false ∧
    loadScrippet plainClassSandbox =
      Except.error ("Scrippet must expose invoke(plugin)".data) :=
  ⟨rfl, rfl, rfl⟩

/-- C2 (counterexample): a script that defines both a named class binding
and a default-export class (and no explicit module/export object) should,
by the claimed precedence, resolve to the named class and load an
invoke-capable instance; the code instead resolves the predeclared
`module.exports` empty object and throws. -/
theorem c2_named_class_does_not_win :
    twoShapeSandbox.scrippetVal = JSVal.funcv true ∧
    twoShapeSandbox.defaultExportVal = JSVal.funcv true ∧
    resolveModule twoShapeSandbox ≠ twoShapeSandbox.scrippetVal ∧
    loadScrippet twoShapeSandbox =
      Except.error ("Scrippet must expose invoke(plugin)".data) := by
  refine ⟨rfl, rfl, ?_, rfl⟩
  decide

/-- C2 (amended): resolution precedence is evaluated over the sandbox
bindings by JS truthiness in the fixed order module/exports, `exports`,
`Scrippet`, `defaultExport`, wrapped bare `invoke`, `window.Scrippet` —
with `module.exports` initialised to a truthy empty object, so the later
shapes are only reachable when a script overwrites `module`/`exports` with
falsy values — and a resolved constructor is instantiated with the host
handle while any other resolved value is used as-is. -/
theorem c2_resolution_precedence_amended (s : SandboxState) :
    loadScrippet s = loadSpec s := by
  unfold loadScrippet loadSpec
  rw [resolveModule_eq_spec]

/-- C3 (counterexample): on a source carrying both a front-matter block
(`id: alpha`) and a later comment block (`@id: beta`), the parsed metadata
holds the comment's value, not the front-matter's, because
`parseScrippetMetadata` applies the comment record after the front-matter
record; this falsifies the claim that the front-matter value wins for keys
present in both. -/
theorem c3_front_matter_value_does_not_win :
    ((parseScrippetMetadata c3Source).frontmatter.map
      (fun fb => getAssoc fb.data ("id".data))) = some (some (YVal.str ("alpha".data))) ∧
    getAssoc (parseScrippetMetadata c3Source).metadata ("id".data) =
      some ("beta".data) ∧
    getAssoc (parseScrippetMetadata c3Source).metadata ("id".data) ≠
      some ("alpha".data) := by
  refine ⟨by decide, by decide, by decide⟩

/-- C3 (amended): when both headers are present, the comment block is only
matched in the region after the front-matter block ends, and for every key
carried by the comment block's directive record the comment's value — not
the front-matter's — is the parsed metadata value. -/
theorem c3_comment_directives_override_front_matter (source : List Char)
    (fb : FmBlock) (cb : CmBlock)
    (hf : (parseScrippetMetadata source).frontmatter = some fb)
    (hc : (parseScrippetMetadata source).comment = some cb) :
    fb.stop ≤ cb.start ∧
    ∀ k v, getAssoc (parseComment cb.raw) k = some v →
      getAssoc (parseScrippetMetadata source).metadata k = some (yvalToChars v) := by
  unfold parseScrippetMetadata at hf hc ⊢
  simp only [] at hf hc ⊢
  rw [hf] at hc ⊢
  simp only [] at hc ⊢
  rw [hc]
  simp only []
  refine ⟨matchCommentBlock_start_ge source fb.stop cb hc, ?_⟩
  intro k v hv
  exact applyRecord_getAssoc_eq _ _ k v (parseComment_wf cb.raw) hv

/-- The front-matter block of `c3Source` as parsed. -/
def c3Fb : FmBlock :=
  { start := 0, stop := 18, raw := ("---\nid: alpha\n---\n").data
    data := [(("id".data), YVal.str ("alpha".data))] }

/-- The comment block of `c3Source` as parsed. -/
def c3Cb : CmBlock :=
  { start := 18, stop := 39, raw := ("/* @id: beta @z: q */").data }

theorem c3_amended_witness :
    (parseScrippetMetadata c3Source).frontmatter = some c3Fb ∧
    (parseScrippetMetadata c3Source).comment = some c3Cb ∧
    getAssoc (parseComment c3Cb.raw) ("id".data) = some (YVal.str ("beta".data)) ∧
    getAssoc (parseScrippetMetadata c3Source).metadata ("id".data) =
      some (yvalToChars (YVal.str ("beta".data))) :=
  ⟨by decide, by decide, by decide,
    (c3_comment_directives_override_front_matter c3Source c3Fb c3Cb
        (by decide) (by decide)).2
      ("id".data) (YVal.str ("beta".data)) (by decide)⟩

/-- C5 (code bug): rewriting the id of a source whose header is the
canonical single-line comment form destroys the header: the greedy
`[^@\n]*` value pattern of `updateCommentId` swallows the closing
delimiter, so re-parsing the rewritten source finds no metadata at all and
the parsed `id` is absent rather than the new id. -/
theorem c5_single_line_round_trip_fails :
    (parseScrippetMetadata c5Source).comment ≠ none ∧
    updateScrippetId c5Source ("fresh".data) =
      ("/* @id: fresh\nconst value = 1;").data ∧
    (parseScrippetMetadata (updateScrippetId c5Source ("fresh".data))).metadata = [] ∧
    getAssoc (parseScrippetMetadata
        (updateScrippetId c5Source ("fresh".data))).metadata ("id".data) ≠
      some ("fresh".data) := by
  refine ⟨by decide, by decide, by decide, by decide⟩

/-! ## Debounce burst lemmas -/

/-- The amended burst condition: each event arrives strictly after the
previous one and within the base delay (hence strictly before the pending
flush would fire). -/
def burstOkB : Nat → List Nat → Bool
  | _, [] => true
  | prev, t :: ts =>
    decide (prev < t) && decide (t - prev < baseReloadDelay) && burstOkB t ts

theorem runQueue_burst (ts : List Nat) : ∀ (s : DebounceState),
    s.timer = some (s.lastChangeAt + s.reloadDelay) →
    baseReloadDelay ≤ s.reloadDelay → s.reloadDelay ≤ maxReloadDelay →
    burstOkB s.lastChangeAt ts = true →
    (runQueue s ts).2 = [] ∧
    (runQueue s ts).1.timer =
      some ((runQueue s ts).1.lastChangeAt + (runQueue s ts).1.reloadDelay) ∧
    (runQueue s ts).1.lastChangeAt = ts.getLastD s.lastChangeAt ∧
    baseReloadDelay ≤ (runQueue s ts).1.reloadDelay ∧
    (runQueue s ts).1.reloadDelay ≤ maxReloadDelay := by
  induction ts with
  | nil =>
    intro s h1 h2 h3 _
    exact ⟨rfl, h1, rfl, h2, h3⟩
  | cons t ts ih =>
    intro s h1 h2 h3 hb
    unfold burstOkB at hb
    simp only [Bool.and_eq_true, decide_eq_true_eq] at hb
    obtain ⟨⟨hlt, hwin⟩, hrest⟩ := hb
    unfold baseReloadDelay at hwin
    have hnofire : ¬ (s.lastChangeAt + s.reloadDelay < t) := by
      unfold baseReloadDelay at h2
      omega
    have hstep : queueStep s t =
        ({ changeBurst := s.changeBurst + 1
           reloadDelay :=
             min maxReloadDelay (baseReloadDelay + (s.changeBurst + 1) * 100)
           lastChangeAt := t
           timer := some (t +
             min maxReloadDelay (baseReloadDelay + (s.changeBurst + 1) * 100)) },
         []) := by
      unfold queueStep fireIfDue
      rw [h1]
      simp only []
      rw [if_neg hnofire]
      simp only []
      rw [if_pos (show t - s.lastChangeAt < 500 by omega)]
    have hd1 : baseReloadDelay ≤
        min maxReloadDelay (baseReloadDelay + (s.changeBurst + 1) * 100) := by
      unfold baseReloadDelay maxReloadDelay
      omega
    have hd2 : min maxReloadDelay (baseReloadDelay + (s.changeBurst + 1) * 100) ≤
        maxReloadDelay := Nat.min_le_left _ _
    set sNext : DebounceState :=
      { changeBurst := s.changeBurst + 1
        reloadDelay :=
          min maxReloadDelay (baseReloadDelay + (s.changeBurst + 1) * 100)
        lastChangeAt := t
        timer := some (t +
          min maxReloadDelay (baseReloadDelay + (s.changeBurst + 1) * 100)) }
      with hsN
    have hres := ih sNext (by rw [hsN]) (by rw [hsN]; exact hd1) (by rw [hsN]; exact hd2)
      (by rw [hsN]; exact hrest)
    have hrun : runQueue s (t :: ts) =
        ((runQueue sNext ts).1, [] ++ (runQueue sNext ts).2) := by
      conv_lhs => unfold runQueue
      rw [hstep]
    rw [hrun]
    simp only [List.nil_append]
    refine ⟨hres.1, hres.2.1, ?_, hres.2.2.2.1, hres.2.2.2.2⟩
    have hlast : sNext.lastChangeAt = t := by rw [hsN]
    rw [hres.2.2.1, hlast, List.getLastD_cons]

/-- C9 (counterexample): two change events 300 ms apart are inside the
under-half-a-second window of the claim, yet the first timer (armed with
the 200 ms base delay) fires before the second event arrives, so the burst
produces two flushes — and the first fires before the last event, outside
the claimed window. -/
theorem c9_short_burst_flushes_twice :
    flushTimes [1000, 1300] = [1200, 1600] ∧
    (flushTimes [1000, 1300]).length ≠ 1 ∧
    1300 - 1000 < 500 := by
  refine ⟨by decide, by decide, by decide⟩

/-- C9 (amended): for a burst whose first event is sparse (at least 500 ms
after the initial epoch) and whose consecutive gaps are strictly below the
base delay — so each event arrives before the pending timer fires — the
coalescer performs exactly one flush, at the last event plus the adapted
delay, which lies between the base delay (200 ms) and the capped maximum
(1000 ms); and an event arriving at least 500 ms after the previous one
resets the delay to the base value and the burst counter to one. -/
theorem c9_single_flush_within_bounds (t1 : Nat) (ts : List Nat)
    (h1 : 500 ≤ t1) (hb : burstOkB t1 ts = true) :
    (∃ d, baseReloadDelay ≤ d ∧ d ≤ maxReloadDelay ∧
      flushTimes (t1 :: ts) = [ts.getLastD t1 + d]) ∧
    (∀ (s : DebounceState) (t : Nat), s.lastChangeAt + 500 ≤ t →
      (queueStep s t).1.reloadDelay = baseReloadDelay ∧
      (queueStep s t).1.changeBurst = 1) := by
  constructor
  · set sFirst : DebounceState :=
      { changeBurst := 1, reloadDelay := baseReloadDelay
        lastChangeAt := t1, timer := some (t1 + baseReloadDelay) } with hsF
    have hstep1 : queueStep initDebounce t1 = (sFirst, []) := by
      unfold queueStep fireIfDue initDebounce
      simp only []
      rw [if_neg (show ¬ (t1 - 0 < 500) by omega)]
    have hres := runQueue_burst ts sFirst (by rw [hsF]) (by rw [hsF])
      (by rw [hsF]; show baseReloadDelay ≤ maxReloadDelay; decide)
      (by rw [hsF]; exact hb)
    have hrun : runQueue initDebounce (t1 :: ts) =
        ((runQueue sFirst ts).1, [] ++ (runQueue sFirst ts).2) := by
      conv_lhs => unfold runQueue
      rw [hstep1]
    refine ⟨(runQueue sFirst ts).1.reloadDelay, hres.2.2.2.1, hres.2.2.2.2, ?_⟩
    unfold flushTimes
    rw [hrun]
    simp only [List.nil_append]
    rw [hres.1, hres.2.1, hres.2.2.1]
    have hlast : sFirst.lastChangeAt = t1 := by rw [hsF]
    rw [hlast]
    simp only [List.nil_append]
  · intro s t ht
    have hlast1 : (fireIfDue s t).1.lastChangeAt = s.lastChangeAt := by
      unfold fireIfDue
      rcases s.timer with _ | f
      · rfl
      · simp only []
        by_cases hf : f < t
        · rw [if_pos hf]
        · rw [if_neg hf]
    have hwin : ¬ (t - (fireIfDue s t).1.lastChangeAt < 500) := by
      rw [hlast1]
      omega
    unfold queueStep
    simp only []
    rw [if_neg hwin]
    exact ⟨rfl, rfl⟩

theorem c9_single_flush_witness :
    500 ≤ 1000 ∧ burstOkB 1000 [1100] = true ∧
    (∃ d, baseReloadDelay ≤ d ∧ d ≤ maxReloadDelay ∧
      flushTimes [1000, 1100] = [[1100].getLastD 1000 + d]) :=
  ⟨by decide, by decide,
    (c9_single_flush_within_bounds 1000 [1100] (by decide) (by decide)).1⟩

/-! ## Pending change set: membership lemmas and invariant -/

theorem mem_setAdd {s : List (List Char)} {x p : List Char} :
    p ∈ setAdd s x ↔ p ∈ s ∨ p = x := by
  unfold setAdd
  by_cases h : x ∈ s
  · rw [if_pos h]
    constructor
    · exact fun hp => Or.inl hp
    · rintro (hp | rfl)
      · exact hp
      · exact h
  · rw [if_neg h]
    simp

theorem mem_setDel {s : List (List Char)} {x p : List Char} :
    p ∈ setDel s x ↔ p ∈ s ∧ p ≠ x := by
  unfold setDel
  simp [List.mem_filter]

/-- The pending-change-set invariant of the claim. -/
def PendingInv (pc : PendingChanges) : Prop :=
  (∀ p, ¬ (p ∈ pc.changed ∧ p ∈ pc.deleted)) ∧
  (pc.full = true → pc.changed = [] ∧ pc.deleted = [])

theorem registerChange_preserves_inv (pc : PendingChanges) (c : QueuedChange)
    (h : PendingInv pc) : PendingInv (registerChange pc c) := by
  unfold registerChange
  by_cases hf : c.type = ChangeType.full
  · rw [if_pos hf]
    exact ⟨fun p hp => by simp at hp, fun _ => ⟨rfl, rfl⟩⟩
  · rw [if_neg hf]
    by_cases hfull : pc.full
    · rw [if_pos hfull]
      exact h
    · rw [if_neg hfull]
      rcases c.path with _ | p
      · exact h
      · simp only []
        by_cases hd : c.type = ChangeType.deleted
        · rw [if_pos hd]
          constructor
          · rintro q ⟨hqc, hqd⟩
            rw [mem_setDel] at hqc
            exact hqc.2 (by
              rcases mem_setAdd.mp hqd with hq | rfl
              · exact absurd ⟨hqc.1, hq⟩ (h.1 q)
              · rfl)
          · intro hfl
            exact absurd hfl (by simp [hfull])
        · rw [if_neg hd]
          by_cases hmem : normalizePathModel p ∈ pc.deleted
          · rw [if_pos hmem]
            exact h
          · rw [if_neg hmem]
            constructor
            · rintro q ⟨hqc, hqd⟩
              rcases mem_setAdd.mp hqc with hq | rfl
              · exact h.1 q ⟨hq, hqd⟩
              · exact hmem hqd
            · intro hfl
              exact absurd hfl (by simp [hfull])

/-- C6: after any sequence of `registerChange` calls starting from the
empty pending set, no path sits in both the `changed` and the `deleted`
set, and once the `full` flag is latched both per-path sets are empty;
moreover any later per-path registration on a latched set is a no-op until
the next flush resets the set. -/
theorem c6_pending_change_invariants :
    (∀ (changes : List QueuedChange),
      PendingInv (changes.foldl registerChange createPendingChanges)) ∧
    (∀ (pc : PendingChanges) (c : QueuedChange),
      pc.full = true → c.type ≠ ChangeType.full → registerChange pc c = pc) := by
  constructor
  · intro changes
    exact foldl_preserve PendingInv registerChange registerChange_preserves_inv
      changes createPendingChanges ⟨fun p hp => by simp [createPendingChanges] at hp,
        by simp [createPendingChanges]⟩
  · intro pc c hfull htype
    unfold registerChange
    rw [if_neg htype, if_pos hfull]

theorem c6_pending_change_witness :
    PendingInv
      ([{ type := ChangeType.changed, path := some (("s/a.js").data) },
        { type := ChangeType.deleted, path := some (("s/a.js").data) },
        { type := ChangeType.full, path := none },
        { type := ChangeType.changed, path := some (("s/b.js").data) }].foldl
        registerChange createPendingChanges) ∧
    ({ changed := [], deleted := [], full := true } : PendingChanges).full = true ∧
    ({ type := ChangeType.deleted, path := some (("s/c.js").data) } : QueuedChange).type ≠
      ChangeType.full ∧
    registerChange { changed := [], deleted := [], full := true }
      { type := ChangeType.deleted, path := some (("s/c.js").data) } =
      { changed := [], deleted := [], full := true } :=
  ⟨c6_pending_change_invariants.1 _, by decide, by decide,
    c6_pending_change_invariants.2 _ _ (by decide) (by decide)⟩

/-- C7: invoking a descriptor whose stored preference record is disabled is
a no-op: the manager state (preferences, `hasRun`, error map, instance
cache, dirty flag) is returned unchanged, and the only effect is the
single "disabled" status notice — no confirmation prompt, no load, no
invocation. -/
theorem c7_disabled_descriptor_noop (env : ExecEnv) (st : MState)
    (d : ScrippetDescriptor) (p : ScriptPreference)
    (hpref : getAssoc st.scriptStates d.id = some p)
    (hdis : p.enabled = false) :
    executeDescriptor env st d = (st, [Effect.notice (noticeDisabled d.name)]) := by
  unfold executeDescriptor ensurePreference
  rw [hpref]
  simp only [hdis, Bool.not_false, if_pos]

def c7Env : ExecEnv :=
  { confirmBeforeFirstRun := true
    trustedFolders := []
    confirmAnswer := fun _ => true
    loadOutcome := fun _ => Except.ok ()
    invokeOutcome := fun _ => Except.ok () }

def c7State : MState :=
  { scriptStates := [((("demo").data), { enabled := false, hasRun := false })]
    dirty := false
    errorMap := []
    instanceCache := [] }

def c7Desc : ScrippetDescriptor :=
  { id := ("demo").data
    name := ("Demo").data
    description := none
    path := ("scrippets/demo.js").data
    kind := ScrippetKind.command
    metadata := []
    enabled := false
    headerSnippet := []
    modified := 0 }

theorem c7_disabled_noop_witness :
    getAssoc c7State.scriptStates c7Desc.id =
      some { enabled := false, hasRun := false } ∧
    executeDescriptor c7Env c7State c7Desc =
      (c7State, [Effect.notice (noticeDisabled (("Demo").data))]) :=
  ⟨by decide,
    c7_disabled_descriptor_noop c7Env c7State c7Desc
      { enabled := false, hasRun := false } (by decide) rfl⟩

/-! ## Scan categorisation lemmas -/

/-- Each scan step either records an error for exactly its own path (and
possibly a duplicate for that same path), or produces a descriptor for its
own path with the given kind, leaving errors and duplicates untouched. -/
theorem scanStep_cases (env : ScanEnv) (kind : ScrippetKind)
    (st : ScanAcc × List ScrippetDescriptor) (p : List Char) :
    ((scanStep env kind st p).2 = st.2 ∧
      (∃ msg, (scanStep env kind st p).1.errors = st.1.errors ++ [(p, msg)]) ∧
      ((scanStep env kind st p).1.dups = st.1.dups ∨
        ∃ dup, ScrippetDuplicate.path dup = p ∧
          (scanStep env kind st p).1.dups = st.1.dups ++ [dup])) ∨
    ((scanStep env kind st p).1.errors = st.1.errors ∧
      (scanStep env kind st p).1.dups = st.1.dups ∧
      ∃ d, (scanStep env kind st p).2 = st.2 ++ [d] ∧
        ScrippetDescriptor.path d = p ∧ ScrippetDescriptor.kind d = kind) := by
  unfold scanStep tryBuildDescriptor
  rcases hfs : env.fs p with msg | src
  · exact Or.inl ⟨rfl, ⟨msg, rfl⟩, Or.inl rfl⟩
  · simp only []
    by_cases hid : toIdentifier p (parseScrippetMetadata src).metadata = []
    · rw [if_pos hid]
      exact Or.inl ⟨rfl, ⟨_, rfl⟩, Or.inl rfl⟩
    · rw [if_neg hid]
      by_cases hdup : toIdentifier p (parseScrippetMetadata src).metadata ∈ st.1.processed
      · rw [if_pos hdup]
        exact Or.inl ⟨rfl, ⟨_, rfl⟩, Or.inr ⟨_, rfl, rfl⟩⟩
      · rw [if_neg hdup]
        exact Or.inr ⟨rfl, rfl, _, rfl, rfl, rfl⟩

/-- Error entries survive the rest of a scan (errors are only appended). -/
theorem scanFold_errors_mono (env : ScanEnv) (kind : ScrippetKind) :
    ∀ (files : List (List Char)) (st : ScanAcc × List ScrippetDescriptor)
      (p : List Char),
    p ∈ st.1.errors.map Prod.fst →
    p ∈ (files.foldl (scanStep env kind) st).1.errors.map Prod.fst := by
  intro files
  induction files with
  | nil => intro st p h; exact h
  | cons f rest ih =>
    intro st p h
    rw [List.foldl_cons]
    apply ih
    rcases scanStep_cases env kind st f with ⟨_, ⟨msg, he⟩, _⟩ | ⟨he, _, _⟩ <;> rw [he]
    · simp only [List.map_append, List.mem_append]
      exact Or.inl h
    · exact h

/-- The per-file trichotomy of one scan fold over duplicate-free files:
every listed file ends up either as a produced descriptor or as a recorded
error (never both); files not in the list keep their previous
status; and every newly recorded duplicate path also carries an error. -/
theorem scanFold_paths (env : ScanEnv) (kind : ScrippetKind) :
    ∀ (files : List (List Char)) (st : ScanAcc × List ScrippetDescriptor),
    files.Nodup →
    (∀ p ∈ files, p ∉ st.1.errors.map Prod.fst ∧ p ∉ st.2.map ScrippetDescriptor.path) →
    (∀ p ∈ files,
      (p ∈ (files.foldl (scanStep env kind) st).2.map ScrippetDescriptor.path ∧
        p ∉ (files.foldl (scanStep env kind) st).1.errors.map Prod.fst) ∨
      (p ∉ (files.foldl (scanStep env kind) st).2.map ScrippetDescriptor.path ∧
        p ∈ (files.foldl (scanStep env kind) st).1.errors.map Prod.fst)) ∧
    (∀ p, p ∉ files →
      ((p ∈ (files.foldl (scanStep env kind) st).2.map ScrippetDescriptor.path ↔
        p ∈ st.2.map ScrippetDescriptor.path) ∧
       (p ∈ (files.foldl (scanStep env kind) st).1.errors.map Prod.fst ↔
        p ∈ st.1.errors.map Prod.fst) ∧
       (p ∈ (files.foldl (scanStep env kind) st).1.dups.map ScrippetDuplicate.path ↔
        p ∈ st.1.dups.map ScrippetDuplicate.path))) ∧
    (∀ p, p ∈ (files.foldl (scanStep env kind) st).1.dups.map ScrippetDuplicate.path →
      p ∈ (files.foldl (scanStep env kind) st).1.errors.map Prod.fst ∨
      p ∈ st.1.dups.map ScrippetDuplicate.path) := by
  intro files
  induction files with
  | nil =>
    intro st _ _
    exact ⟨fun p hp => absurd hp (List.not_mem_nil p),
      fun p _ => ⟨Iff.rfl, Iff.rfl, Iff.rfl⟩,
      fun p hp => Or.inr hp⟩
  | cons f rest ih =>
    intro st hnd hpre
    rw [List.nodup_cons] at hnd
    rw [List.foldl_cons]
    have hpref := hpre f (List.mem_cons_self _ _)
    rcases scanStep_cases env kind st f with
      ⟨hds, ⟨msg, herr⟩, hdup⟩ | ⟨herr, hdup, d, hds, hdp, hdk⟩
    · -- error case at f
      have hpre2 : ∀ p ∈ rest,
          p ∉ (scanStep env kind st f).1.errors.map Prod.fst ∧
          p ∉ (scanStep env kind st f).2.map ScrippetDescriptor.path := by
        intro p hp
        have hf : p ≠ f := fun he => hnd.1 (he ▸ hp)
        have hp2 := hpre p (List.mem_cons_of_mem _ hp)
        rw [herr, hds]
        constructor
        · simp only [List.map_append, List.mem_append, List.map_cons, List.map_nil,
            List.mem_singleton]
          rintro (hin | hin)
          · exact hp2.1 hin
          · exact hf (by simpa using hin)
        · exact hp2.2
      have hres := ih (scanStep env kind st f) hnd.2 hpre2
      refine ⟨?_, ?_, ?_⟩
      · intro p hp
        rcases List.mem_cons.mp hp with rfl | hp2
        · right
          have hnotin : p ∉ rest := hnd.1
          refine ⟨?_, ?_⟩
          · rw [(hres.2.1 p hnotin).1, hds]
            exact hpref.2
          · rw [(hres.2.1 p hnotin).2.1, herr]
            simp
        · exact hres.1 p hp2
      · intro p hp
        simp only [List.mem_cons, not_or] at hp
        have h2 := hres.2.1 p hp.2
        refine ⟨h2.1.trans (by rw [hds]), h2.2.1.trans ?_, h2.2.2.trans ?_⟩
        · rw [herr]
          simp only [List.map_append, List.mem_append, List.map_cons, List.map_nil,
            List.mem_singleton]
          constructor
          · rintro (hin | hin)
            · exact hin
            · exact absurd (by simpa using hin) hp.1
          · exact Or.inl
        · rcases hdup with hdup | ⟨dup, hdp, hdup⟩
          · rw [hdup]
          · rw [hdup]
            simp only [List.map_append, List.mem_append, List.map_cons, List.map_nil,
              List.mem_singleton]
            constructor
            · rintro (hin | hin)
              · exact hin
              · exact absurd (hdp ▸ (by simpa using hin)) hp.1
            · exact Or.inl
      · intro p hp
        rcases hres.2.2 p hp with hin | hin
        · exact Or.inl hin
        · rcases hdup with hdup | ⟨dup, hdp, hdup⟩
          · exact Or.inr (by rwa [hdup] at hin)
          · rw [hdup] at hin
            simp only [List.map_append, List.mem_append, List.map_cons, List.map_nil,
              List.mem_singleton] at hin
            rcases hin with hin | hin
            · exact Or.inr hin
            · left
              apply scanFold_errors_mono env kind rest
              rw [herr]
              simp only [List.map_append, List.mem_append, List.map_cons, List.map_nil,
                List.mem_singleton]
              exact Or.inr (by rw [← hdp, hin])
    · -- descriptor case at f
      have hpre2 : ∀ p ∈ rest,
          p ∉ (scanStep env kind st f).1.errors.map Prod.fst ∧
          p ∉ (scanStep env kind st f).2.map ScrippetDescriptor.path := by
        intro p hp
        have hf : p ≠ f := fun he => hnd.1 (he ▸ hp)
        have hp2 := hpre p (List.mem_cons_of_mem _ hp)
        rw [herr, hds]
        refine ⟨hp2.1, ?_⟩
        simp only [List.map_append, List.mem_append, List.map_cons, List.map_nil,
          List.mem_singleton]
        rintro (hin | hin)
        · exact hp2.2 hin
        · exact hf (by rw [← hdp]; simpa using hin)
      have hres := ih (scanStep env kind st f) hnd.2 hpre2
      refine ⟨?_, ?_, ?_⟩
      · intro p hp
        rcases List.mem_cons.mp hp with rfl | hp2
        · left
          have hnotin : p ∉ rest := hnd.1
          refine ⟨?_, ?_⟩
          · rw [(hres.2.1 p hnotin).1, hds]
            simp only [List.map_append, List.mem_append, List.map_cons, List.map_nil,
              List.mem_singleton]
            exact Or.inr (by rw [hdp])
          · rw [(hres.2.1 p hnotin).2.1, herr]
            exact hpref.1
        · exact hres.1 p hp2
      · intro p hp
        simp only [List.mem_cons, not_or] at hp
        have h2 := hres.2.1 p hp.2
        refine ⟨h2.1.trans ?_, h2.2.1.trans (by rw [herr]), h2.2.2.trans (by rw [hdup])⟩
        rw [hds]
        simp only [List.map_append, List.mem_append, List.map_cons, List.map_nil,
          List.mem_singleton]
        constructor
        · rintro (hin | hin)
          · exact hin
          · exact absurd (by rw [← hdp]; simpa using hin) hp.1
        · exact Or.inl
      · intro p hp
        rcases hres.2.2 p hp with hin | hin
        · exact Or.inl hin
        · exact Or.inr (by rwa [hdup] at hin)

/-- Exactly one of three alternatives holds. -/
def ExactlyOne3 (a b c : Prop) : Prop :=
  (a ∨ b ∨ c) ∧ ¬ (a ∧ b) ∧ ¬ (a ∧ c) ∧ ¬ (b ∧ c)

theorem mem_insertByName (l : List ScrippetDescriptor) (d e : ScrippetDescriptor) :
    e ∈ insertByName l d ↔ e ∈ l ∨ e = d := by
  induction l with
  | nil => simp [insertByName]
  | cons a rest ih =>
    unfold insertByName
    by_cases h : charListLe a.name d.name
    · rw [if_pos h]
      simp only [List.mem_cons, ih]
      tauto
    · rw [if_neg h]
      simp only [List.mem_cons]
      tauto

theorem mem_sortByName (l : List ScrippetDescriptor) (e : ScrippetDescriptor) :
    e ∈ sortByName l ↔ e ∈ l := by
  unfold sortByName
  suffices h : ∀ (acc : List ScrippetDescriptor),
      e ∈ l.foldl insertByName acc ↔ e ∈ acc ∨ e ∈ l by
    rw [h []]
    simp
  induction l with
  | nil => intro acc; simp
  | cons d rest ih =>
    intro acc
    rw [List.foldl_cons, ih (insertByName acc d), mem_insertByName]
    simp only [List.mem_cons]
    tauto

theorem mem_sortByName_path (l : List ScrippetDescriptor) (p : List Char) :
    p ∈ (sortByName l).map ScrippetDescriptor.path ↔
    p ∈ l.map ScrippetDescriptor.path := by
  constructor <;> intro h <;> rcases List.mem_map.mp h with ⟨d, hd, rfl⟩
  · exact List.mem_map.mpr ⟨d, (mem_sortByName l d).mp hd, rfl⟩
  · exact List.mem_map.mpr ⟨d, (mem_sortByName l d).mpr hd, rfl⟩

/-- The storage contents for the C4 counterexample: two command files whose
headers declare the same id. -/
def c4Env : ScanEnv :=
  { fs := fun p =>
      if p = ("s/a.js").data then Except.ok (("/* @id: foo */").data)
      else if p = ("s/b.js").data then Except.ok (("/* @id: foo */").data)
      else Except.error (("missing").data)
    mtime := fun _ => 7 }

def c4Scan : ScrippetScanResult :=
  (scanScrippets c4Env [("s/a.js").data, ("s/b.js").data] [] [] false).1

/-- C4 (counterexample): with two command files both resolving to id `foo`,
the second file is recorded BOTH as a discovery error and as a duplicate
(with suggestion `foo-2`), so the four categories of the claim are not
mutually exclusive. -/
theorem c4_duplicate_recorded_twice :
    ("s/b.js").data ∈ c4Scan.errors.map Prod.fst ∧
    ("s/b.js").data ∈ c4Scan.duplicates.map ScrippetDuplicate.path ∧
    ("s/a.js").data ∈ c4Scan.commands.map ScrippetDescriptor.path ∧
    c4Scan.duplicates.map ScrippetDuplicate.suggestion = [("foo-2").data] := by
  refine ⟨by decide, by decide, by decide, by decide⟩

/-- C4 (amended): over duplicate-free scanned file lists, every examined
file falls into exactly one of {registered as command descriptor,
registered as startup descriptor, recorded as discovery error}; a file
recorded as a duplicate is always also recorded as a discovery error (the
duplicate list refines the error list rather than forming a disjoint
category). -/
theorem c4_scan_trichotomy (env : ScanEnv) (commandFiles startupFiles : List (List Char))
    (states : ScriptStates) (dirty : Bool)
    (hnd : (commandFiles ++ startupFiles).Nodup) :
    (∀ p ∈ commandFiles ++ startupFiles,
      ExactlyOne3
        (p ∈ (scanScrippets env commandFiles startupFiles states dirty).1.commands.map
          ScrippetDescriptor.path)
        (p ∈ (scanScrippets env commandFiles startupFiles states dirty).1.startup.map
          ScrippetDescriptor.path)
        (p ∈ (scanScrippets env commandFiles startupFiles states dirty).1.errors.map
          Prod.fst)) ∧
    (∀ p ∈ (scanScrippets env commandFiles startupFiles states dirty).1.duplicates.map
        ScrippetDuplicate.path,
      p ∈ (scanScrippets env commandFiles startupFiles states dirty).1.errors.map
        Prod.fst) := by
  rw [List.nodup_append] at hnd
  obtain ⟨hndC, hndS, hdisj⟩ := hnd
  set acc0 : ScanAcc :=
    { processed := [], errors := [], dups := [], states := states, dirty := dirty }
    with hacc0
  have hA := scanFold_paths env ScrippetKind.command commandFiles (acc0, []) hndC
    (fun p _ => ⟨by rw [hacc0]; simp, by simp⟩)
  have hBpre : ∀ p ∈ startupFiles,
      p ∉ (commandFiles.foldl (scanStep env ScrippetKind.command) (acc0, [])).1.errors.map
        Prod.fst ∧ p ∉ ([] : List ScrippetDescriptor).map ScrippetDescriptor.path := by
    intro p hp
    have hpc : p ∉ commandFiles := fun hin => hdisj hin hp
    refine ⟨fun hin => ?_, by simp⟩
    have h2 := ((hA.2.1 p hpc).2.1).mp hin
    rw [hacc0] at h2
    simp at h2
  have hB := scanFold_paths env ScrippetKind.startup startupFiles
    ((commandFiles.foldl (scanStep env ScrippetKind.command) (acc0, [])).1, []) hndS hBpre
  have hcmds : (scanScrippets env commandFiles startupFiles states dirty).1.commands =
      sortByName (commandFiles.foldl (scanStep env ScrippetKind.command) (acc0, [])).2 := rfl
  have hstups : (scanScrippets env commandFiles startupFiles states dirty).1.startup =
      sortByName (startupFiles.foldl (scanStep env ScrippetKind.startup)
        ((commandFiles.foldl (scanStep env ScrippetKind.command) (acc0, [])).1, [])).2 := rfl
  have herrs : (scanScrippets env commandFiles startupFiles states dirty).1.errors =
      (startupFiles.foldl (scanStep env ScrippetKind.startup)
        ((commandFiles.foldl (scanStep env ScrippetKind.command) (acc0, [])).1, [])).1.errors := rfl
  have hdups : (scanScrippets env commandFiles startupFiles states dirty).1.duplicates =
      (startupFiles.foldl (scanStep env ScrippetKind.startup)
        ((commandFiles.foldl (scanStep env ScrippetKind.command) (acc0, [])).1, [])).1.dups := rfl
  constructor
  · intro p hp
    rw [List.mem_append] at hp
    rcases hp with hpc | hps
    · -- a command file: startup fold leaves its status alone
      have hpns : p ∉ startupFiles := fun hin => hdisj hpc hin
      have hBkeep := hB.2.1 p hpns
      rcases hA.1 p hpc with ⟨hin, hne⟩ | ⟨hnin, herr⟩
      · refine ⟨Or.inl (by rw [hcmds, mem_sortByName_path]; exact hin), ?_, ?_, ?_⟩
        · rintro ⟨_, hb⟩
          rw [hstups, mem_sortByName_path] at hb
          have := hBkeep.1.mp hb
          simp at this
        · rintro ⟨_, hc⟩
          rw [herrs] at hc
          exact hne (hBkeep.2.1.mp hc)
        · rintro ⟨hb, _⟩
          rw [hstups, mem_sortByName_path] at hb
          have := hBkeep.1.mp hb
          simp at this
      · refine ⟨Or.inr (Or.inr (by rw [herrs]; exact hBkeep.2.1.mpr herr)), ?_, ?_, ?_⟩
        · rintro ⟨ha, _⟩
          rw [hcmds, mem_sortByName_path] at ha
          exact hnin ha
        · rintro ⟨ha, _⟩
          rw [hcmds, mem_sortByName_path] at ha
          exact hnin ha
        · rintro ⟨hb, _⟩
          rw [hstups, mem_sortByName_path] at hb
          have := hBkeep.1.mp hb
          simp at this
    · -- a startup file: it was not seen by the command fold
      have hpnc : p ∉ commandFiles := fun hin => hdisj hin hps
      have hAkeep := hA.2.1 p hpnc
      have hnA : p ∉ (commandFiles.foldl (scanStep env ScrippetKind.command)
          (acc0, [])).2.map ScrippetDescriptor.path := by
        intro hin
        have := hAkeep.1.mp hin
        simp at this
      rcases hB.1 p hps with ⟨hin, hne⟩ | ⟨hnin, herr⟩
      · refine ⟨Or.inr (Or.inl (by rw [hstups, mem_sortByName_path]; exact hin)), ?_, ?_, ?_⟩
        · rintro ⟨ha, _⟩
          rw [hcmds, mem_sortByName_path] at ha
          exact hnA ha
        · rintro ⟨ha, _⟩
          rw [hcmds, mem_sortByName_path] at ha
          exact hnA ha
        · rintro ⟨_, hc⟩
          rw [herrs] at hc
          exact hne hc
      · refine ⟨Or.inr (Or.inr (by rw [herrs]; exact herr)), ?_, ?_, ?_⟩
        · rintro ⟨ha, _⟩
          rw [hcmds, mem_sortByName_path] at ha
          exact hnA ha
        · rintro ⟨ha, _⟩
          rw [hcmds, mem_sortByName_path] at ha
          exact hnA ha
        · rintro ⟨hb, _⟩
          rw [hstups, mem_sortByName_path] at hb
          exact hnin hb
  · intro p hp
    rw [hdups] at hp
    rw [herrs]
    rcases hB.2.2 p hp with hin | hin
    · exact hin
    · rcases hA.2.2 p hin with hin2 | hin2
      · exact scanFold_errors_mono env ScrippetKind.startup startupFiles _ p hin2
      · rw [hacc0] at hin2
        simp at hin2

theorem c4_scan_trichotomy_witness :
    ([("s/a.js").data, ("s/b.js").data] ++ ([] : List (List Char))).Nodup ∧
    ExactlyOne3
      (("s/a.js").data ∈ c4Scan.commands.map ScrippetDescriptor.path)
      (("s/a.js").data ∈ c4Scan.startup.map ScrippetDescriptor.path)
      (("s/a.js").data ∈ c4Scan.errors.map Prod.fst) :=
  ⟨by decide,
    (c4_scan_trichotomy c4Env [("s/a.js").data, ("s/b.js").data] [] [] false
        (by decide)).1
      (("s/a.js").data) (by decide)⟩

/-! ## Startup execution lemmas -/

/-- The effect list of a descriptor load is empty (cache hit) or the single
load step. -/
theorem loadDescriptorInstance_effects (env : ExecEnv) (st : MState)
    (d : ScrippetDescriptor) :
    (loadDescriptorInstance env st d).2.2 = [] ∨
    (loadDescriptorInstance env st d).2.2 = [Effect.loadScript d.id] := by
  unfold loadDescriptorInstance
  by_cases h : d.id ∈ st.instanceCache
  · rw [if_pos h]
    exact Or.inl rfl
  · rw [if_neg h]
    rcases hlo : env.loadOutcome d.id with msg | u <;> simp

/-- A descriptor load never touches the preference store. -/
theorem loadDescriptorInstance_states (env : ExecEnv) (st : MState)
    (d : ScrippetDescriptor) :
    (loadDescriptorInstance env st d).1.scriptStates = st.scriptStates := by
  unfold loadDescriptorInstance
  by_cases h : d.id ∈ st.instanceCache
  · rw [if_pos h]
  · rw [if_neg h]
    rcases hlo : env.loadOutcome d.id with msg | u <;> simp only []

/-- Every effect of one startup iteration belongs to its own script: its
load step, its invocation, or its startup-failure notice. -/
theorem startupRunOne_effects (env : ExecEnv) (st : MState)
    (d : ScrippetDescriptor) (prefs : Option ScriptPreference) :
    ∀ e ∈ (startupRunOne env st d prefs).2,
      e = Effect.loadScript d.id ∨ e = Effect.invokeScript d.id ∨
      ∃ msg, e = Effect.notice (noticeStartupFailed d.name msg) := by
  unfold startupRunOne
  rcases hl : loadDescriptorInstance env st d with ⟨st2, exc, le⟩
  have hle : le = [] ∨ le = [Effect.loadScript d.id] := by
    have h2 := loadDescriptorInstance_effects env st d
    rw [hl] at h2
    exact h2
  have hmem : ∀ e ∈ le, e = Effect.loadScript d.id := by
    intro e he
    rcases hle with rfl | rfl
    · exact absurd he (List.not_mem_nil e)
    · simpa using he
  rcases exc with msg | u
  · simp only []
    intro e he
    rw [List.mem_append] at he
    rcases he with he | he
    · exact Or.inl (hmem e he)
    · exact Or.inr (Or.inr ⟨msg, by simpa using he⟩)
  · rcases hio : env.invokeOutcome d.id with msg | u2
    · simp only []
      intro e he
      rw [List.mem_append] at he
      rcases he with he | he
      · exact Or.inl (hmem e he)
      · rcases List.mem_cons.mp he with rfl | he2
        · exact Or.inr (Or.inl rfl)
        · exact Or.inr (Or.inr ⟨msg, by simpa using he2⟩)
    · rcases prefs with _ | p
      · simp only []
        intro e he
        rw [List.mem_append] at he
        rcases he with he | he
        · exact Or.inl (hmem e he)
        · exact Or.inr (Or.inl (by simpa using he))
      · intro e he
        simp only [] at he
        by_cases hr : (!p.hasRun) = true
        · rw [if_pos hr] at he
          simp only [List.mem_append] at he
          rcases he with he | he
          · exact Or.inl (hmem e he)
          · exact Or.inr (Or.inl (by simpa using he))
        · rw [if_neg hr] at he
          simp only [List.mem_append] at he
          rcases he with he | he
          · exact Or.inl (hmem e he)
          · exact Or.inr (Or.inl (by simpa using he))

/-- One startup iteration always attempts its script: its effects contain
the invocation step or a startup-failure notice for this script. -/
theorem startupRunOne_attempts (env : ExecEnv) (st : MState)
    (d : ScrippetDescriptor) (prefs : Option ScriptPreference) :
    Effect.invokeScript d.id ∈ (startupRunOne env st d prefs).2 ∨
    ∃ msg, Effect.notice (noticeStartupFailed d.name msg) ∈
      (startupRunOne env st d prefs).2 := by
  unfold startupRunOne
  rcases hl : loadDescriptorInstance env st d with ⟨st2, exc, le⟩
  rcases exc with msg | u
  · simp only []
    exact Or.inr ⟨msg, by simp⟩
  · rcases hio : env.invokeOutcome d.id with msg | u2
    · simp only []
      exact Or.inl (by simp)
    · rcases prefs with _ | p
      · simp only []
        exact Or.inl (by simp)
      · simp only []
        by_cases hr : (!p.hasRun) = true
        · rw [if_pos hr]
          exact Or.inl (by simp)
        · rw [if_neg hr]
          exact Or.inl (by simp)

/-- One startup iteration only rewrites the executed script's own
preference entry. -/
theorem startupRunOne_states (env : ExecEnv) (st : MState)
    (d : ScrippetDescriptor) (prefs : Option ScriptPreference) (id0 : List Char)
    (h : id0 ≠ d.id) :
    getAssoc (startupRunOne env st d prefs).1.scriptStates id0 =
      getAssoc st.scriptStates id0 := by
  unfold startupRunOne
  rcases hl : loadDescriptorInstance env st d with ⟨st2, exc, le⟩
  have hst2 : st2.scriptStates = st.scriptStates := by
    have h2 := loadDescriptorInstance_states env st d
    rw [hl] at h2
    exact h2
  rcases exc with msg | u
  · simp only []
    exact hst2 ▸ rfl
  · rcases hio : env.invokeOutcome d.id with msg | u2
    · simp only []
      exact hst2 ▸ rfl
    · rcases prefs with _ | p
      · simp only []
        rw [getAssoc_setAssoc_ne _ _ _ _ (fun he => h he.symm), hst2]
      · by_cases hr : (!p.hasRun) = true
        · simp only []
          rw [if_pos hr]
          simp only []
          rw [getAssoc_setAssoc_ne _ _ _ _ (fun he => h he.symm), hst2]
        · simp only []
          rw [if_neg hr]
          simp only []
          rw [hst2]

/-- Effects accumulated before a startup fold survive it. -/
theorem startupFold_effects_mono (env : ExecEnv) :
    ∀ (ds : List ScrippetDescriptor) (acc : MState × List Effect) (e : Effect),
    e ∈ acc.2 → e ∈ (ds.foldl (startupStep env) acc).2 := by
  intro ds
  induction ds with
  | nil => intro acc e he; exact he
  | cons d rest ih =>
    intro acc e he
    rw [List.foldl_cons]
    apply ih
    unfold startupStep
    rcases hg : getAssoc acc.1.scriptStates d.id with _ | p
    · simp only []
      exact List.mem_append_left _ he
    · simp only []
      by_cases hp : (!p.enabled) = true
      · rw [if_pos hp]
        exact he
      · rw [if_neg hp]
        exact List.mem_append_left _ he

/-- A startup fold never emits a confirmation prompt. -/
theorem startupFold_no_confirm (env : ExecEnv) :
    ∀ (ds : List ScrippetDescriptor) (acc : MState × List Effect),
    (∀ id0, Effect.confirmPrompt id0 ∉ acc.2) →
    ∀ id0, Effect.confirmPrompt id0 ∉ (ds.foldl (startupStep env) acc).2 := by
  intro ds
  induction ds with
  | nil => intro acc h id0; exact h id0
  | cons d rest ih =>
    intro acc h id0
    rw [List.foldl_cons]
    apply ih
    intro id1
    unfold startupStep
    rcases hg : getAssoc acc.1.scriptStates d.id with _ | p
    · simp only []
      intro hin
      rcases List.mem_append.mp hin with hin | hin
      · exact h id1 hin
      · rcases startupRunOne_effects env acc.1 d none _ hin with he | he | ⟨msg, he⟩ <;>
          exact absurd he (by simp)
    · simp only []
      by_cases hp : (!p.enabled) = true
      · rw [if_pos hp]
        exact h id1
      · rw [if_neg hp]
        intro hin
        rcases List.mem_append.mp hin with hin | hin
        · exact h id1 hin
        · rcases startupRunOne_effects env acc.1 d (some p) _ hin with he | he | ⟨msg, he⟩ <;>
            exact absurd he (by simp)

/-- The startup enablement of a descriptor: a missing preference counts as
enabled (the manager creates an enabled record on first run). -/
def startupEnabled (states : ScriptStates) (d : ScrippetDescriptor) : Bool :=
  match getAssoc states d.id with
  | some p => p.enabled
  | none => true

/-- Every enabled descriptor of a startup fold over distinct ids is
attempted: the final effect list carries its invocation or its own failure
notice, independent of the outcomes of the other scripts. -/
theorem startupFold_complete (env : ExecEnv) :
    ∀ (ds : List ScrippetDescriptor) (acc : MState × List Effect),
    ((ds.map ScrippetDescriptor.id).Nodup) →
    ∀ d ∈ ds, startupEnabled acc.1.scriptStates d = true →
    Effect.invokeScript d.id ∈ (ds.foldl (startupStep env) acc).2 ∨
    ∃ msg, Effect.notice (noticeStartupFailed d.name msg) ∈
      (ds.foldl (startupStep env) acc).2 := by
  intro ds
  induction ds with
  | nil => intro acc _ d hd; exact absurd hd (List.not_mem_nil d)
  | cons d0 rest ih =>
    intro acc hnd d hd hen
    rw [List.map_cons, List.nodup_cons] at hnd
    rw [List.foldl_cons]
    rcases List.mem_cons.mp hd with rfl | hd2
    · -- the head descriptor is attempted by its own step
      have hstep : Effect.invokeScript d.id ∈ (startupStep env acc d).2 ∨
          ∃ msg, Effect.notice (noticeStartupFailed d.name msg) ∈
            (startupStep env acc d).2 := by
        unfold startupStep
        unfold startupEnabled at hen
        rcases hg : getAssoc acc.1.scriptStates d.id with _ | p
        · simp only []
          rcases startupRunOne_attempts env acc.1 d none with hin | ⟨msg, hin⟩
          · exact Or.inl (List.mem_append_right _ hin)
          · exact Or.inr ⟨msg, List.mem_append_right _ hin⟩
        · rw [hg] at hen
          simp only [] at hen
          simp only []
          rw [if_neg (by rw [hen]; simp)]
          simp only []
          rcases startupRunOne_attempts env acc.1 d (some p) with hin | ⟨msg, hin⟩
          · exact Or.inl (List.mem_append_right _ hin)
          · exact Or.inr ⟨msg, List.mem_append_right _ hin⟩
      rcases hstep with hin | ⟨msg, hin⟩
      · exact Or.inl (startupFold_effects_mono env rest _ _ hin)
      · exact Or.inr ⟨msg, startupFold_effects_mono env rest _ _ hin⟩
    · -- a later descriptor: its preference is untouched by the head step
      have hne : d.id ≠ d0.id := by
        intro he
        exact hnd.1 (he ▸ List.mem_map_of_mem ScrippetDescriptor.id hd2)
      have hpres : getAssoc (startupStep env acc d0).1.scriptStates d.id =
          getAssoc acc.1.scriptStates d.id := by
        unfold startupStep
        rcases hg : getAssoc acc.1.scriptStates d0.id with _ | p
        · simp only []
          exact startupRunOne_states env acc.1 d0 none d.id hne
        · simp only []
          by_cases hp : (!p.enabled) = true
          · rw [if_pos hp]
          · rw [if_neg hp]
            exact startupRunOne_states env acc.1 d0 (some p) d.id hne
      apply ih (startupStep env acc d0) hnd.2 d hd2
      unfold startupEnabled
      rw [hpres]
      exact hen

/-- C8: during startup execution over descriptors with distinct ids, no
first-run confirmation prompt is ever emitted, whatever the global
require-confirmation setting and whatever answers the confirmation oracle
would give; and every descriptor whose stored preference does not disable
it is attempted: the startup effect trace contains its invocation or a
startup-failure notice naming that very script, independently of the load
or invocation failures of every other script in the batch. -/
theorem c8_startup_no_confirm_and_isolated (env : ExecEnv) (st : MState)
    (ds : List ScrippetDescriptor)
    (hnd : (ds.map ScrippetDescriptor.id).Nodup) :
    (∀ id0, Effect.confirmPrompt id0 ∉ (executeStartup env st ds).2) ∧
    ∀ d ∈ ds, startupEnabled st.scriptStates d = true →
      Effect.invokeScript d.id ∈ (executeStartup env st ds).2 ∨
      ∃ msg, Effect.notice (noticeStartupFailed d.name msg) ∈
        (executeStartup env st ds).2 := by
  have h2 : (executeStartup env st ds).2 =
      (ds.foldl (startupStep env) (st, ([] : List Effect))).2 := rfl
  constructor
  · intro id0
    rw [h2]
    exact startupFold_no_confirm env ds (st, []) (fun id1 => List.not_mem_nil _) id0
  · intro d hd hen
    rw [h2]
    exact startupFold_complete env ds (st, []) hnd d hd hen

/-- A startup environment with the global confirmation setting on, a
declining confirmation oracle, a first script that fails to load and a
second that succeeds. -/
def c8Env : ExecEnv :=
  { confirmBeforeFirstRun := true
    trustedFolders := []
    confirmAnswer := fun _ => false
    loadOutcome := fun id0 =>
      if id0 = ("alpha").data then Except.error (("boom").data) else Except.ok ()
    invokeOutcome := fun _ => Except.ok () }

def c8State : MState :=
  { scriptStates := [], dirty := false, errorMap := [], instanceCache := [] }

def c8DescA : ScrippetDescriptor :=
  { id := ("alpha").data
    name := ("Alpha").data
    description := none
    path := ("scrippets/alpha.js").data
    kind := ScrippetKind.startup
    metadata := []
    enabled := true
    headerSnippet := []
    modified := 0 }

def c8DescB : ScrippetDescriptor :=
  { id := ("beta").data
    name := ("Beta").data
    description := none
    path := ("scrippets/beta.js").data
    kind := ScrippetKind.startup
    metadata := []
    enabled := true
    headerSnippet := []
    modified := 0 }

/-- Witness for C8 on a two-script batch where the first never-run script
fails to load under a declining confirmation oracle. -/
theorem c8_startup_no_confirm_witness :
    (([c8DescA, c8DescB].map ScrippetDescriptor.id)).Nodup ∧
    ((∀ id0, Effect.confirmPrompt id0 ∉
        (executeStartup c8Env c8State [c8DescA, c8DescB]).2) ∧
     ∀ d ∈ [c8DescA, c8DescB], startupEnabled c8State.scriptStates d = true →
       Effect.invokeScript d.id ∈
         (executeStartup c8Env c8State [c8DescA, c8DescB]).2 ∨
       ∃ msg, Effect.notice (noticeStartupFailed d.name msg) ∈
         (executeStartup c8Env c8State [c8DescA, c8DescB]).2) :=
  ⟨by decide,
   c8_startup_no_confirm_and_isolated c8Env c8State [c8DescA, c8DescB] (by decide)⟩

/-! ## HTML safety of the header snippet (C10)

A Boolean scanner for safe snippet HTML.  `escSafe` accepts exactly the
strings made of HTML-inert characters and the five entities emitted by
`escapeHtml`; `snippetSafe` additionally accepts the renderer's own
`<br>`, `<mark>` and `</mark>` tokens.  Any raw `<`, `>`, `"`, `'`, or an
`&` that does not start one of the five entities, is rejected. -/


def neutralChar (c : Char) : Bool :=
  !(c = '<' || c = '>' || c = '"' || c = '\'' || c = '&')

def escSafe : List Char → Bool
  | [] => true
  | c :: rest =>
    if neutralChar c then escSafe rest
    else if c = '&' then
      match rest with
      | 'a' :: 'm' :: 'p' :: ';' :: r => escSafe r
      | 'l' :: 't' :: ';' :: r => escSafe r
      | 'g' :: 't' :: ';' :: r => escSafe r
      | 'q' :: 'u' :: 'o' :: 't' :: ';' :: r => escSafe r
      | '#' :: '3' :: '9' :: ';' :: r => escSafe r
      | _ => false
    else false

def snippetSafe : List Char → Bool
  | [] => true
  | c :: rest =>
    if neutralChar c then snippetSafe rest
    else if c = '&' then
      match rest with
      | 'a' :: 'm' :: 'p' :: ';' :: r => snippetSafe r
      | 'l' :: 't' :: ';' :: r => snippetSafe r
      | 'g' :: 't' :: ';' :: r => snippetSafe r
      | 'q' :: 'u' :: 'o' :: 't' :: ';' :: r => snippetSafe r
      | '#' :: '3' :: '9' :: ';' :: r => snippetSafe r
      | _ => false
    else if c = '<' then
      match rest with
      | 'b' :: 'r' :: '>' :: r => snippetSafe r
      | 'm' :: 'a' :: 'r' :: 'k' :: '>' :: r => snippetSafe r
      | '/' :: 'm' :: 'a' :: 'r' :: 'k' :: '>' :: r => snippetSafe r
      | _ => false
    else false


set_option maxHeartbeats 4000000 in
theorem escSafe_cons (c : Char) (rest : List Char) :
    escSafe (c :: rest) =
    (if neutralChar c then escSafe rest
    else if c = '&' then
      match rest with
      | 'a' :: 'm' :: 'p' :: ';' :: r => escSafe r
      | 'l' :: 't' :: ';' :: r => escSafe r
      | 'g' :: 't' :: ';' :: r => escSafe r
      | 'q' :: 'u' :: 'o' :: 't' :: ';' :: r => escSafe r
      | '#' :: '3' :: '9' :: ';' :: r => escSafe r
      | _ => false
    else false) := by
  rw [escSafe.eq_def]

set_option maxHeartbeats 4000000 in
theorem snippetSafe_cons (c : Char) (rest : List Char) :
    snippetSafe (c :: rest) =
    (if neutralChar c then snippetSafe rest
    else if c = '&' then
      match rest with
      | 'a' :: 'm' :: 'p' :: ';' :: r => snippetSafe r
      | 'l' :: 't' :: ';' :: r => snippetSafe r
      | 'g' :: 't' :: ';' :: r => snippetSafe r
      | 'q' :: 'u' :: 'o' :: 't' :: ';' :: r => snippetSafe r
      | '#' :: '3' :: '9' :: ';' :: r => snippetSafe r
      | _ => false
    else if c = '<' then
      match rest with
      | 'b' :: 'r' :: '>' :: r => snippetSafe r
      | 'm' :: 'a' :: 'r' :: 'k' :: '>' :: r => snippetSafe r
      | '/' :: 'm' :: 'a' :: 'r' :: 'k' :: '>' :: r => snippetSafe r
      | _ => false
    else false) := by
  rw [snippetSafe.eq_def]

theorem escSafe_cons_neutral (c : Char) (rest : List Char)
    (h : neutralChar c = true) : escSafe (c :: rest) = escSafe rest := by
  rw [escSafe_cons, if_pos h]

theorem snippetSafe_cons_neutral (c : Char) (rest : List Char)
    (h : neutralChar c = true) : snippetSafe (c :: rest) = snippetSafe rest := by
  rw [snippetSafe_cons, if_pos h]

theorem escSafe_amp (r : List Char) :
    escSafe ('&' :: 'a' :: 'm' :: 'p' :: ';' :: r) = escSafe r := rfl

theorem escSafe_lt (r : List Char) :
    escSafe ('&' :: 'l' :: 't' :: ';' :: r) = escSafe r := rfl

theorem escSafe_gt (r : List Char) :
    escSafe ('&' :: 'g' :: 't' :: ';' :: r) = escSafe r := rfl

theorem escSafe_quot (r : List Char) :
    escSafe ('&' :: 'q' :: 'u' :: 'o' :: 't' :: ';' :: r) = escSafe r := rfl

theorem escSafe_apos (r : List Char) :
    escSafe ('&' :: '#' :: '3' :: '9' :: ';' :: r) = escSafe r := rfl

theorem snippetSafe_amp (r : List Char) :
    snippetSafe ('&' :: 'a' :: 'm' :: 'p' :: ';' :: r) = snippetSafe r := rfl

theorem snippetSafe_lt (r : List Char) :
    snippetSafe ('&' :: 'l' :: 't' :: ';' :: r) = snippetSafe r := rfl

theorem snippetSafe_gt (r : List Char) :
    snippetSafe ('&' :: 'g' :: 't' :: ';' :: r) = snippetSafe r := rfl

theorem snippetSafe_quot (r : List Char) :
    snippetSafe ('&' :: 'q' :: 'u' :: 'o' :: 't' :: ';' :: r) = snippetSafe r := rfl

theorem snippetSafe_apos (r : List Char) :
    snippetSafe ('&' :: '#' :: '3' :: '9' :: ';' :: r) = snippetSafe r := rfl

theorem snippetSafe_br (r : List Char) :
    snippetSafe ('<' :: 'b' :: 'r' :: '>' :: r) = snippetSafe r := rfl

theorem snippetSafe_mark (r : List Char) :
    snippetSafe ('<' :: 'm' :: 'a' :: 'r' :: 'k' :: '>' :: r) = snippetSafe r := rfl

theorem snippetSafe_unmark (r : List Char) :
    snippetSafe ('<' :: '/' :: 'm' :: 'a' :: 'r' :: 'k' :: '>' :: r) = snippetSafe r := rfl

theorem escSafe_cons_cases (c : Char) (rest : List Char)
    (h : escSafe (c :: rest) = true) :
    (neutralChar c = true ∧ escSafe rest = true) ∨
    (c = '&' ∧ ∃ r,
      (rest = 'a' :: 'm' :: 'p' :: ';' :: r ∨
       rest = 'l' :: 't' :: ';' :: r ∨
       rest = 'g' :: 't' :: ';' :: r ∨
       rest = 'q' :: 'u' :: 'o' :: 't' :: ';' :: r ∨
       rest = '#' :: '3' :: '9' :: ';' :: r) ∧ escSafe r = true) := by
  rw [escSafe_cons] at h
  split at h
  · exact Or.inl ⟨by assumption, h⟩
  · split at h
    · rename_i hamp
      split at h
      · exact Or.inr ⟨hamp, _, Or.inl rfl, h⟩
      · exact Or.inr ⟨hamp, _, Or.inr (Or.inl rfl), h⟩
      · exact Or.inr ⟨hamp, _, Or.inr (Or.inr (Or.inl rfl)), h⟩
      · exact Or.inr ⟨hamp, _, Or.inr (Or.inr (Or.inr (Or.inl rfl))), h⟩
      · exact Or.inr ⟨hamp, _, Or.inr (Or.inr (Or.inr (Or.inr rfl))), h⟩
      · exact absurd h (by simp)
    · exact absurd h (by simp)

theorem snippetSafe_cons_cases (c : Char) (rest : List Char)
    (h : snippetSafe (c :: rest) = true) :
    (neutralChar c = true ∧ snippetSafe rest = true) ∨
    (c = '&' ∧ ∃ r,
      (rest = 'a' :: 'm' :: 'p' :: ';' :: r ∨
       rest = 'l' :: 't' :: ';' :: r ∨
       rest = 'g' :: 't' :: ';' :: r ∨
       rest = 'q' :: 'u' :: 'o' :: 't' :: ';' :: r ∨
       rest = '#' :: '3' :: '9' :: ';' :: r) ∧ snippetSafe r = true) ∨
    (c = '<' ∧ ∃ r,
      (rest = 'b' :: 'r' :: '>' :: r ∨
       rest = 'm' :: 'a' :: 'r' :: 'k' :: '>' :: r ∨
       rest = '/' :: 'm' :: 'a' :: 'r' :: 'k' :: '>' :: r) ∧
      snippetSafe r = true) := by
  rw [snippetSafe_cons] at h
  split at h
  · exact Or.inl ⟨by assumption, h⟩
  · split at h
    · rename_i hamp
      split at h
      · exact Or.inr (Or.inl ⟨hamp, _, Or.inl rfl, h⟩)
      · exact Or.inr (Or.inl ⟨hamp, _, Or.inr (Or.inl rfl), h⟩)
      · exact Or.inr (Or.inl ⟨hamp, _, Or.inr (Or.inr (Or.inl rfl)), h⟩)
      · exact Or.inr (Or.inl ⟨hamp, _, Or.inr (Or.inr (Or.inr (Or.inl rfl))), h⟩)
      · exact Or.inr (Or.inl ⟨hamp, _, Or.inr (Or.inr (Or.inr (Or.inr rfl))), h⟩)
      · exact absurd h (by simp)
    · split at h
      · rename_i hlt
        split at h
        · exact Or.inr (Or.inr ⟨hlt, _, Or.inl rfl, h⟩)
        · exact Or.inr (Or.inr ⟨hlt, _, Or.inr (Or.inl rfl), h⟩)
        · exact Or.inr (Or.inr ⟨hlt, _, Or.inr (Or.inr rfl), h⟩)
        · exact absurd h (by simp)
      · exact absurd h (by simp)

theorem escSafe_amp_tail (r : List Char) :
    escSafe ('a' :: 'm' :: 'p' :: ';' :: r) = escSafe r := by
  rw [escSafe_cons_neutral 'a' _ (by decide), escSafe_cons_neutral 'm' _ (by decide), escSafe_cons_neutral 'p' _ (by decide), escSafe_cons_neutral ';' _ (by decide)]

theorem escSafe_lt_tail (r : List Char) :
    escSafe ('l' :: 't' :: ';' :: r) = escSafe r := by
  rw [escSafe_cons_neutral 'l' _ (by decide), escSafe_cons_neutral 't' _ (by decide), escSafe_cons_neutral ';' _ (by decide)]

theorem escSafe_gt_tail (r : List Char) :
    escSafe ('g' :: 't' :: ';' :: r) = escSafe r := by
  rw [escSafe_cons_neutral 'g' _ (by decide), escSafe_cons_neutral 't' _ (by decide), escSafe_cons_neutral ';' _ (by decide)]

theorem escSafe_quot_tail (r : List Char) :
    escSafe ('q' :: 'u' :: 'o' :: 't' :: ';' :: r) = escSafe r := by
  rw [escSafe_cons_neutral 'q' _ (by decide), escSafe_cons_neutral 'u' _ (by decide), escSafe_cons_neutral 'o' _ (by decide), escSafe_cons_neutral 't' _ (by decide), escSafe_cons_neutral ';' _ (by decide)]

theorem escSafe_apos_tail (r : List Char) :
    escSafe ('#' :: '3' :: '9' :: ';' :: r) = escSafe r := by
  rw [escSafe_cons_neutral '#' _ (by decide), escSafe_cons_neutral '3' _ (by decide), escSafe_cons_neutral '9' _ (by decide), escSafe_cons_neutral ';' _ (by decide)]

theorem escSafe_tail (c : Char) (rest : List Char)
    (h : escSafe (c :: rest) = true) : escSafe rest = true := by
  rcases escSafe_cons_cases c rest h with ⟨_, h2⟩ | ⟨_, r, hsh, hr⟩
  · exact h2
  · rcases hsh with rfl | rfl | rfl | rfl | rfl
    · rw [escSafe_amp_tail]; exact hr
    · rw [escSafe_lt_tail]; exact hr
    · rw [escSafe_gt_tail]; exact hr
    · rw [escSafe_quot_tail]; exact hr
    · rw [escSafe_apos_tail]; exact hr

theorem escSafe_drop (n : Nat) (s : List Char) (h : escSafe s = true) :
    escSafe (s.drop n) = true := by
  induction n generalizing s with
  | zero => exact h
  | succ m ih =>
    cases s with
    | nil => exact h
    | cons c rest => exact ih rest (escSafe_tail c rest h)

theorem escSafe_append_aux (n : Nat) :
    ∀ (a b : List Char), a.length ≤ n → escSafe a = true → escSafe b = true →
      escSafe (a ++ b) = true := by
  induction n with
  | zero =>
    intro a b hlen ha hb
    cases a with
    | nil => simpa using hb
    | cons c rest => simp at hlen
  | succ m ih =>
    intro a b hlen ha hb
    cases a with
    | nil => simpa using hb
    | cons c rest =>
      rcases escSafe_cons_cases c rest ha with ⟨hne, h2⟩ | ⟨rfl, r, hsh, hr⟩
      · rw [List.cons_append, escSafe_cons_neutral _ _ hne]
        exact ih rest b (by simp only [List.length_cons] at hlen; omega) h2 hb
      · rcases hsh with rfl | rfl | rfl | rfl | rfl
        · rw [show (('&':: 'a':: 'm':: 'p':: ';'::r) ++ b : List Char) =
              '&':: 'a':: 'm':: 'p':: ';'::(r ++ b) from rfl, escSafe_amp]
          exact ih r b (by simp only [List.length_cons] at hlen; omega) hr hb
        · rw [show (('&':: 'l':: 't':: ';'::r) ++ b : List Char) =
              '&':: 'l':: 't':: ';'::(r ++ b) from rfl, escSafe_lt]
          exact ih r b (by simp only [List.length_cons] at hlen; omega) hr hb
        · rw [show (('&':: 'g':: 't':: ';'::r) ++ b : List Char) =
              '&':: 'g':: 't':: ';'::(r ++ b) from rfl, escSafe_gt]
          exact ih r b (by simp only [List.length_cons] at hlen; omega) hr hb
        · rw [show (('&':: 'q':: 'u':: 'o':: 't':: ';'::r) ++ b : List Char) =
              '&':: 'q':: 'u':: 'o':: 't':: ';'::(r ++ b) from rfl, escSafe_quot]
          exact ih r b (by simp only [List.length_cons] at hlen; omega) hr hb
        · rw [show (('&':: '#':: '3':: '9':: ';'::r) ++ b : List Char) =
              '&':: '#':: '3':: '9':: ';'::(r ++ b) from rfl, escSafe_apos]
          exact ih r b (by simp only [List.length_cons] at hlen; omega) hr hb

theorem escSafe_append (a b : List Char) (ha : escSafe a = true)
    (hb : escSafe b = true) : escSafe (a ++ b) = true :=
  escSafe_append_aux a.length a b (le_refl _) ha hb

theorem snippetSafe_append_aux (n : Nat) :
    ∀ (a b : List Char), a.length ≤ n → snippetSafe a = true →
      snippetSafe b = true → snippetSafe (a ++ b) = true := by
  induction n with
  | zero =>
    intro a b hlen ha hb
    cases a with
    | nil => simpa using hb
    | cons c rest => simp at hlen
  | succ m ih =>
    intro a b hlen ha hb
    cases a with
    | nil => simpa using hb
    | cons c rest =>
      rcases snippetSafe_cons_cases c rest ha with
        ⟨hne, h2⟩ | ⟨rfl, r, hsh, hr⟩ | ⟨rfl, r, hsh, hr⟩
      · rw [List.cons_append, snippetSafe_cons_neutral _ _ hne]
        exact ih rest b (by simp only [List.length_cons] at hlen; omega) h2 hb
      · rcases hsh with rfl | rfl | rfl | rfl | rfl
        · rw [show (('&':: 'a':: 'm':: 'p':: ';'::r) ++ b : List Char) =
              '&':: 'a':: 'm':: 'p':: ';'::(r ++ b) from rfl, snippetSafe_amp]
          exact ih r b (by simp only [List.length_cons] at hlen; omega) hr hb
        · rw [show (('&':: 'l':: 't':: ';'::r) ++ b : List Char) =
              '&':: 'l':: 't':: ';'::(r ++ b) from rfl, snippetSafe_lt]
          exact ih r b (by simp only [List.length_cons] at hlen; omega) hr hb
        · rw [show (('&':: 'g':: 't':: ';'::r) ++ b : List Char) =
              '&':: 'g':: 't':: ';'::(r ++ b) from rfl, snippetSafe_gt]
          exact ih r b (by simp only [List.length_cons] at hlen; omega) hr hb
        · rw [show (('&':: 'q':: 'u':: 'o':: 't':: ';'::r) ++ b : List Char) =
              '&':: 'q':: 'u':: 'o':: 't':: ';'::(r ++ b) from rfl, snippetSafe_quot]
          exact ih r b (by simp only [List.length_cons] at hlen; omega) hr hb
        · rw [show (('&':: '#':: '3':: '9':: ';'::r) ++ b : List Char) =
              '&':: '#':: '3':: '9':: ';'::(r ++ b) from rfl, snippetSafe_apos]
          exact ih r b (by simp only [List.length_cons] at hlen; omega) hr hb
      · rcases hsh with rfl | rfl | rfl
        · rw [show (('<':: 'b':: 'r':: '>'::r) ++ b : List Char) =
              '<':: 'b':: 'r':: '>'::(r ++ b) from rfl, snippetSafe_br]
          exact ih r b (by simp only [List.length_cons] at hlen; omega) hr hb
        · rw [show (('<':: 'm':: 'a':: 'r':: 'k':: '>'::r) ++ b : List Char) =
              '<':: 'm':: 'a':: 'r':: 'k':: '>'::(r ++ b) from rfl, snippetSafe_mark]
          exact ih r b (by simp only [List.length_cons] at hlen; omega) hr hb
        · rw [show (('<':: '/':: 'm':: 'a':: 'r':: 'k':: '>'::r) ++ b : List Char) =
              '<':: '/':: 'm':: 'a':: 'r':: 'k':: '>'::(r ++ b) from rfl, snippetSafe_unmark]
          exact ih r b (by simp only [List.length_cons] at hlen; omega) hr hb

theorem snippetSafe_append (a b : List Char) (ha : snippetSafe a = true)
    (hb : snippetSafe b = true) : snippetSafe (a ++ b) = true :=
  snippetSafe_append_aux a.length a b (le_refl _) ha hb

theorem escSafe_imp_snippetSafe_aux (n : Nat) :
    ∀ (s : List Char), s.length ≤ n → escSafe s = true →
      snippetSafe s = true := by
  induction n with
  | zero =>
    intro s hlen h
    cases s with
    | nil => rfl
    | cons c rest => simp at hlen
  | succ m ih =>
    intro s hlen h
    cases s with
    | nil => rfl
    | cons c rest =>
      rcases escSafe_cons_cases c rest h with ⟨hne, h2⟩ | ⟨rfl, r, hsh, hr⟩
      · rw [snippetSafe_cons_neutral _ _ hne]
        exact ih rest (by simp only [List.length_cons] at hlen; omega) h2
      · rcases hsh with rfl | rfl | rfl | rfl | rfl
        · rw [snippetSafe_amp]
          exact ih r (by simp only [List.length_cons] at hlen; omega) hr
        · rw [snippetSafe_lt]
          exact ih r (by simp only [List.length_cons] at hlen; omega) hr
        · rw [snippetSafe_gt]
          exact ih r (by simp only [List.length_cons] at hlen; omega) hr
        · rw [snippetSafe_quot]
          exact ih r (by simp only [List.length_cons] at hlen; omega) hr
        · rw [snippetSafe_apos]
          exact ih r (by simp only [List.length_cons] at hlen; omega) hr

theorem escSafe_imp_snippetSafe (s : List Char) (h : escSafe s = true) :
    snippetSafe s = true :=
  escSafe_imp_snippetSafe_aux s.length s (le_refl _) h

theorem snippetSafe_of_neutral (s : List Char)
    (h : ∀ c ∈ s, neutralChar c = true) : snippetSafe s = true := by
  induction s with
  | nil => rfl
  | cons c rest ih =>
    rw [snippetSafe_cons_neutral c rest (h c (List.mem_cons_self c rest))]
    exact ih (fun d hd => h d (List.mem_cons_of_mem c hd))

theorem wordDash_neutral (c : Char) (h : isWordDashChar c = true) :
    neutralChar c = true := by
  have h1 : c ≠ '<' := fun he => absurd (he ▸ h) (by decide)
  have h2 : c ≠ '>' := fun he => absurd (he ▸ h) (by decide)
  have h3 : c ≠ '"' := fun he => absurd (he ▸ h) (by decide)
  have h4 : c ≠ '\'' := fun he => absurd (he ▸ h) (by decide)
  have h5 : c ≠ '&' := fun he => absurd (he ▸ h) (by decide)
  simp [neutralChar, h1, h2, h3, h4, h5]

theorem space_neutral (c : Char) (h : jsIsSpace c = true) :
    neutralChar c = true := by
  have h1 : c ≠ '<' := fun he => absurd (he ▸ h) (by decide)
  have h2 : c ≠ '>' := fun he => absurd (he ▸ h) (by decide)
  have h3 : c ≠ '"' := fun he => absurd (he ▸ h) (by decide)
  have h4 : c ≠ '\'' := fun he => absurd (he ▸ h) (by decide)
  have h5 : c ≠ '&' := fun he => absurd (he ▸ h) (by decide)
  simp [neutralChar, h1, h2, h3, h4, h5]

theorem replaceChar_append (p : Char) (rep a b : List Char) :
    replaceChar p rep (a ++ b) =
      replaceChar p rep a ++ replaceChar p rep b := by
  induction a with
  | nil => rfl
  | cons c rest ih => simp [replaceChar, ih, List.append_assoc]

theorem escapeHtml_append (a b : List Char) :
    escapeHtml (a ++ b) = escapeHtml a ++ escapeHtml b := by
  unfold escapeHtml
  rw [replaceChar_append, replaceChar_append, replaceChar_append,
    replaceChar_append, replaceChar_append]

theorem escapeHtml_cons (c : Char) (s : List Char) :
    escapeHtml (c :: s) = escapeHtml [c] ++ escapeHtml s := by
  rw [show (c :: s) = [c] ++ s from rfl, escapeHtml_append]

theorem escSafe_escapeHtml_single (c : Char) :
    escSafe (escapeHtml [c]) = true := by
  by_cases h1 : c = '&'
  · subst h1; decide
  by_cases h2 : c = '<'
  · subst h2; decide
  by_cases h3 : c = '>'
  · subst h3; decide
  by_cases h4 : c = '"'
  · subst h4; decide
  by_cases h5 : c = '\''
  · subst h5; decide
  have he : escapeHtml [c] = [c] := by
    unfold escapeHtml
    simp [replaceChar, h1, h2, h3, h4, h5]
  rw [he, escSafe_cons_neutral _ _ (by simp [neutralChar, h1, h2, h3, h4, h5])]
  rfl

theorem escSafe_escapeHtml (s : List Char) :
    escSafe (escapeHtml s) = true := by
  induction s with
  | nil => rfl
  | cons c rest ih =>
    rw [escapeHtml_cons]
    exact escSafe_append _ _ (escSafe_escapeHtml_single c) ih

theorem tryDirectiveAt_parts (t : List Char) (hit : DirHit)
    (h : tryDirectiveAt t = some hit) :
    (∀ c ∈ hit.key, isWordDashChar c = true) ∧
    (∀ c ∈ hit.ws1, jsIsSpace c = true) ∧
    (∀ c ∈ hit.ws2, jsIsSpace c = true) ∧
    ∃ n, hit.rest = t.drop n := by
  unfold tryDirectiveAt at h
  by_cases hw : (t.takeWhile isWordDashChar).isEmpty
  · simp [hw] at h
  · simp only [hw, if_false, Bool.false_eq_true] at h
    split at h
    · rename_i r3 heq
      cases h
      refine ⟨fun c hc => List.mem_takeWhile_imp hc,
        fun c hc => List.mem_takeWhile_imp hc,
        fun c hc => List.mem_takeWhile_imp hc, ?_⟩
      have hr3 : r3 = ((t.drop (t.takeWhile isWordDashChar).length).drop
          (((t.drop (t.takeWhile isWordDashChar).length).takeWhile
            jsIsSpace).length)).tail := by
        rw [heq]
        rfl
      simp only []
      rw [hr3, List.tail_drop, List.drop_drop, List.drop_drop]
      exact ⟨_, rfl⟩
    · exact absurd h (by simp)

theorem markAux_copy :
    ∀ (p : List Char), (∀ c ∈ p, c ≠ '@') →
    ∀ (fuel : Nat) (r : List Char), ∃ f2, f2 ≤ fuel ∧
      markDirectivesAux fuel (p ++ r) = p ++ markDirectivesAux f2 r := by
  intro p
  induction p with
  | nil => intro _ fuel r; exact ⟨fuel, le_refl _, rfl⟩
  | cons c p2 ih =>
    intro hp fuel r
    cases fuel with
    | zero => exact ⟨0, le_refl _, rfl⟩
    | succ f =>
      have hc : c ≠ '@' := hp c (List.mem_cons_self c p2)
      rcases ih (fun d hd => hp d (List.mem_cons_of_mem c hd)) f r with
        ⟨f2, hle, heq⟩
      refine ⟨f2, Nat.le_succ_of_le hle, ?_⟩
      show markDirectivesAux (f + 1) (c :: (p2 ++ r)) = _
      rw [markDirectivesAux, if_neg hc, heq]
      rfl

theorem snippetSafe_markAux_aux (n : Nat) :
    ∀ (fuel : Nat) (s : List Char), fuel ≤ n → escSafe s = true →
      snippetSafe (markDirectivesAux fuel s) = true := by
  induction n with
  | zero =>
    intro fuel s hle h
    have h0 : fuel = 0 := Nat.le_zero.mp hle
    subst h0
    exact escSafe_imp_snippetSafe s h
  | succ m ih =>
    intro fuel s hle h
    cases fuel with
    | zero => exact escSafe_imp_snippetSafe s h
    | succ f =>
      have hf : f ≤ m := Nat.succ_le_succ_iff.mp hle
      cases s with
      | nil => rfl
      | cons c rest =>
        by_cases hc : c = '@'
        · subst hc
          rw [markDirectivesAux, if_pos rfl]
          rcases hd : tryDirectiveAt rest with _ | hit
          · simp only []
            rw [snippetSafe_cons_neutral _ _ (by decide)]
            exact ih f rest hf (escSafe_tail _ _ h)
          · simp only []
            rcases tryDirectiveAt_parts rest hit hd with ⟨hk, hw1, hw2, nd, hrn⟩
            have hrest : escSafe hit.rest = true := by
              rw [hrn]
              exact escSafe_drop nd rest (escSafe_tail _ _ h)
            have hm : snippetSafe (markDirectivesAux f hit.rest) = true :=
              ih f hit.rest hf hrest
            refine snippetSafe_append _ _ (snippetSafe_append _ _
              (snippetSafe_append _ _ (snippetSafe_append _ _
                (snippetSafe_append _ _ (snippetSafe_append _ _
                  (by decide)
                  (snippetSafe_of_neutral _
                    (fun d hdm => wordDash_neutral d (hk d hdm))))
                  (by decide))
                (snippetSafe_of_neutral _
                  (fun d hdm => space_neutral d (hw1 d hdm))))
                (by decide))
              (snippetSafe_of_neutral _
                (fun d hdm => space_neutral d (hw2 d hdm)))) hm
        · rw [markDirectivesAux, if_neg hc]
          rcases escSafe_cons_cases c rest h with ⟨hne, h2⟩ | ⟨rfl, r, hsh, hr⟩
          · rw [snippetSafe_cons_neutral _ _ hne]
            exact ih f rest hf h2
          · rcases hsh with rfl | rfl | rfl | rfl | rfl
            · rcases markAux_copy (['a', 'm', 'p', ';']) (by decide) f r with
                ⟨f2, hle2, heq⟩
              have heq2 : markDirectivesAux f ('a':: 'm':: 'p':: ';'::r) =
                  'a':: 'm':: 'p':: ';'::markDirectivesAux f2 r := heq
              rw [heq2, snippetSafe_amp]
              exact ih f2 r (le_trans hle2 hf) hr
            · rcases markAux_copy (['l', 't', ';']) (by decide) f r with
                ⟨f2, hle2, heq⟩
              have heq2 : markDirectivesAux f ('l':: 't':: ';'::r) =
                  'l':: 't':: ';'::markDirectivesAux f2 r := heq
              rw [heq2, snippetSafe_lt]
              exact ih f2 r (le_trans hle2 hf) hr
            · rcases markAux_copy (['g', 't', ';']) (by decide) f r with
                ⟨f2, hle2, heq⟩
              have heq2 : markDirectivesAux f ('g':: 't':: ';'::r) =
                  'g':: 't':: ';'::markDirectivesAux f2 r := heq
              rw [heq2, snippetSafe_gt]
              exact ih f2 r (le_trans hle2 hf) hr
            · rcases markAux_copy (['q', 'u', 'o', 't', ';']) (by decide) f r with
                ⟨f2, hle2, heq⟩
              have heq2 : markDirectivesAux f ('q':: 'u':: 'o':: 't':: ';'::r) =
                  'q':: 'u':: 'o':: 't':: ';'::markDirectivesAux f2 r := heq
              rw [heq2, snippetSafe_quot]
              exact ih f2 r (le_trans hle2 hf) hr
            · rcases markAux_copy (['#', '3', '9', ';']) (by decide) f r with
                ⟨f2, hle2, heq⟩
              have heq2 : markDirectivesAux f ('#':: '3':: '9':: ';'::r) =
                  '#':: '3':: '9':: ';'::markDirectivesAux f2 r := heq
              rw [heq2, snippetSafe_apos]
              exact ih f2 r (le_trans hle2 hf) hr

theorem snippetSafe_markDirectives (s : List Char) (h : escSafe s = true) :
    snippetSafe (markDirectives s) = true :=
  snippetSafe_markAux_aux s.length s.length s (le_refl _) h

theorem snippetSafe_intercalate (ls : List (List Char))
    (h : ∀ l ∈ ls, snippetSafe l = true) :
    snippetSafe (List.intercalate (("<br>").data) ls) = true := by
  induction ls with
  | nil => rfl
  | cons l rest ih =>
    cases rest with
    | nil =>
      have he : List.intercalate (("<br>").data) [l] = l := by
        simp [List.intercalate]
      rw [he]
      exact h l (List.mem_cons_self l [])
    | cons l2 rest2 =>
      have he : List.intercalate (("<br>").data) (l :: l2 :: rest2) =
          l ++ (("<br>").data) ++ List.intercalate (("<br>").data) (l2 :: rest2) := by
        simp [List.intercalate, List.intersperse_cons_cons, List.append_assoc]
      rw [he]
      exact snippetSafe_append _ _
        (snippetSafe_append _ _ (h l (List.mem_cons_self l _)) (by decide))
        (ih (fun l3 hl3 => h l3 (List.mem_cons_of_mem l hl3)))

/-- C10: for every source text and line budget (the source's default is
10), `buildHeaderSnippet` yields a string in which every `&`, `<`, `>`,
`"` and `'` drawn from the source lines has been HTML-escaped: the scanner
`snippetSafe` accepts the result, so the only unescaped markup is the
`<br>` separators and `<mark>`/`</mark>` tags inserted by the renderer
itself, and no raw HTML of the script source reaches `innerHTML` of the
confirmation dialog. -/
theorem c10_header_snippet_escapes (source : List Char) (maxLines : Nat) :
    snippetSafe (buildHeaderSnippet source maxLines) = true := by
  unfold buildHeaderSnippet
  simp only []
  split
  · rfl
  · apply snippetSafe_intercalate
    intro l hl
    rcases List.mem_map.mp hl with ⟨l0, hl0, rfl⟩
    exact snippetSafe_markDirectives (escapeHtml l0) (escSafe_escapeHtml l0)


end Scrippets
